import Mathlib

/-!
Verification of the definition-to-filesystem synchronization engine of the
cc-switch repository (Rust sources under `src-tauri/src/`).

Modelling conventions:
* Rust `String`/`&str` values are modelled as `List Char`; Rust byte offsets
  (`str::find`, range slicing) become character offsets, which agree with the
  source algorithm structure (`find` first occurrence, slice around it).
* The SQLite-backed store is modelled as an ordered list of rows, mirroring the
  `IndexMap` the DAO layer produces; `INSERT OR REPLACE` keyed by `id` becomes
  an in-place keyed replace.
* File systems are modelled as total maps to `Option` file contents (`none` =
  the file does not exist); `write_text_file` (config.rs, whole-file overwrite,
  not part of the analysed sources) is modelled as a map update that always
  succeeds.

Set-up: a tiny self-contained substring-search theory (`occursAt`,
`findSubstr?`) used to embed Rust `str::find`.
-/

set_option maxHeartbeats 1000000

/-- `occursAt s n i` states that the pattern `n` occurs in `s` at position `i`. -/
def occursAt (s n : List Char) (i : Nat) : Prop :=
  (s.drop i).take n.length = n

instance (s n : List Char) (i : Nat) : Decidable (occursAt s n i) := by
  unfold occursAt; infer_instance

/-- Embedding of Rust `str::find(&pat)`: position of the first occurrence of
`n` in `h`, if any. -/
def findSubstr? (h n : List Char) : Option Nat :=
  if n.isPrefixOf h then some 0
  else
    match h with
    | [] => none
    | _ :: t => (findSubstr? t n).map (· + 1)

/-!
Data model (agent.rs / app_config.rs): `AgentDefinition` with its per-tool
enablement flags `McpApps`.  The four Boolean fields are taken from the columns
read by `database/dao/agents.rs`; `Default` gives all-false flags.
-/

/-- Per-tool enablement flags of an agent (`McpApps`, app_config.rs; the four
fields are the ones persisted by dao/agents.rs). -/
structure McpApps where
  claude : Bool := false
  codex : Bool := false
  gemini : Bool := false
  opencode : Bool := false
  deriving DecidableEq, Repr

/-- `AgentDefinition` (agent.rs). -/
structure AgentDefinition where
  id : List Char
  name : List Char
  content : List Char
  description : Option (List Char) := none
  apps : McpApps := {}
  created_at : Option Int := none
  updated_at : Option Int := none
  deriving DecidableEq, Repr

namespace codex

/-!
Text region codec (agents/codex.rs; agents/gemini.rs is textually identical
modulo the target path, which the pure codec does not mention).
-/

/-- `start_marker` (codex.rs): `<!-- cc-switch:agent:{id} -->`. -/
def start_marker (id : List Char) : List Char :=
  "<!-- cc-switch:agent:".data ++ id ++ " -->".data

/-- `end_marker` (codex.rs): `<!-- /cc-switch:agent:{id} -->`. -/
def end_marker (id : List Char) : List Char :=
  "<!-- /cc-switch:agent:".data ++ id ++ " -->".data

/-- The part of `build_block` (codex.rs) accumulated before the
`ends_with('\n')` check: start marker, newline, `# {name}` line, blank line,
content. -/
def blockBody (agent : AgentDefinition) : List Char :=
  start_marker agent.id ++ ['\n'] ++ ['#', ' '] ++ agent.name ++ ['\n'] ++
    ['\n'] ++ agent.content

/-- `build_block` (codex.rs), mirroring the sequential pushes: the body above,
newline-terminated if it was not, then a blank separator line, the end marker
and a final newline. -/
def build_block (agent : AgentDefinition) : List Char :=
  (if (blockBody agent).getLast? = some '\n' then blockBody agent
   else blockBody agent ++ ['\n']) ++ ['\n'] ++ end_marker agent.id ++ ['\n']

/-- Rust `content[after_end..].starts_with('\n')` adjustment: skip one newline
right after the removed/replaced end marker. -/
def skipLeadingNl (content : List Char) (i : Nat) : Nat :=
  if (content.drop i).head? = some '\n' then i + 1 else i

/-- Rust `str::ends_with` for a multi-character pattern. -/
def endsWithSeq (l s : List Char) : Bool :=
  s.reverse.isPrefixOf l.reverse

/-- The padding applied by the append branch of `upsert_block` (codex.rs):
terminate a non-empty haystack with a newline, then add one more newline when
it does not already end with a blank line. -/
def padBlank (content : List Char) : List Char :=
  let r1 := if content ≠ [] ∧ content.getLast? ≠ some '\n' then content ++ ['\n'] else content
  if r1 ≠ [] ∧ endsWithSeq r1 ['\n', '\n'] = false then r1 ++ ['\n'] else r1

/-- The replacement branch of `upsert_block` (codex.rs): splice the fresh block
over `[start_pos, end_pos + end_marker_len (+ 1 newline))`. -/
def replaceRange (content : List Char) (agent : AgentDefinition)
    (start_pos end_pos : Nat) : List Char :=
  content.take start_pos ++ build_block agent ++
    content.drop (skipLeadingNl content (end_pos + (end_marker agent.id).length))

/-- `upsert_block` (codex.rs lines 75-102). -/
def upsert_block (content : List Char) (agent : AgentDefinition) : List Char :=
  match findSubstr? content (start_marker agent.id),
        findSubstr? content (end_marker agent.id) with
  | some start_pos, some end_pos => replaceRange content agent start_pos end_pos
  | _, _ => padBlank content ++ build_block agent

/-- The blank-gap adjustment of `remove_block` (codex.rs): when the text before
the start marker ends with two consecutive newlines, also delete one of them. -/
def removeAdjStart (content : List Char) (start_pos : Nat) : Nat :=
  if 0 < start_pos ∧ endsWithSeq (content.take start_pos) ['\n', '\n'] = true then
    start_pos - 1
  else start_pos

/-- `remove_block` (codex.rs lines 105-127). -/
def remove_block (content : List Char) (id : List Char) : List Char :=
  match findSubstr? content (start_marker id), findSubstr? content (end_marker id) with
  | some start_pos, some end_pos =>
      content.take (removeAdjStart content start_pos) ++
        content.drop (skipLeadingNl content (end_pos + (end_marker id).length))
  | _, _ => content

/-- Normalised content: `content`, newline-terminated when it was not. -/
def contentNl (c : List Char) : List Char :=
  if c = [] ∨ c.getLast? = some '\n' then c else c ++ ['\n']

/-- The interior of a block, between the two marker lines. -/
def blockMid (agent : AgentDefinition) : List Char :=
  ['\n', '#', ' '] ++ agent.name ++ ['\n', '\n'] ++ contentNl agent.content ++ ['\n']

/-- The cleanliness assumption under which the markers of `agent.id` cannot be
forged anywhere inside a built block or across splice boundaries: the character
`<` occurs in none of id, name and content. -/
def cleanDef (agent : AgentDefinition) : Prop :=
  '<' ∉ agent.id ∧ '<' ∉ agent.name ∧ '<' ∉ agent.content

instance (agent : AgentDefinition) : Decidable (cleanDef agent) := by
  unfold cleanDef; infer_instance

/-- Position of the end marker inside a built block. -/
def endPos (agent : AgentDefinition) : Nat :=
  (start_marker agent.id).length + (blockMid agent).length

end codex

/-!
Concrete inputs used by counterexamples and witnesses.
-/

/-- A definition whose id, name and content are free of marker-forging
characters. -/
def agentClean : AgentDefinition := { id := ['a'], name := ['n'], content := ['c'] }

/-- A definition whose content is itself the end marker of its own id. -/
def agentDirty : AgentDefinition :=
  { id := ['a'], name := ['n'], content := codex.end_marker ['a'] }

/-- A haystack in which the end marker occurs before the start marker. -/
def H5cex : List Char :=
  codex.end_marker ['a'] ++ codex.start_marker ['a'] ++ codex.end_marker ['a']

/-- A haystack already ending with two blank lines. -/
def H6cex : List Char := "a\n\n\n".data

/-- A haystack with a blank-line gap before a block of id `a`. -/
def H4cex : List Char := "x\n\n".data ++ codex.build_block agentClean

/-!
Tool identity (`AppType`, app_config.rs; the closed variant set is evident from
the match arms throughout the sources), the remaining per-tool agent file
writers, the sync dispatcher (agents/mod.rs) and both services
(services/agents.rs, services/prompt.rs).
-/

/-- `AppType` (app_config.rs): closed enum of supported tools. -/
inductive AppType where
  | Claude
  | Codex
  | Gemini
  | OpenCode
  | OpenClaw
  deriving DecidableEq, Repr

namespace gemini

/-- gemini.rs: `upsert_block` is textually identical to the codex.rs one (only
the target path differs, which the pure codec does not mention); the embedding
shares the definition. -/
def upsert_block : List Char → AgentDefinition → List Char := codex.upsert_block

/-- gemini.rs `remove_block`, textually identical to the codex.rs one. -/
def remove_block : List Char → List Char → List Char := codex.remove_block

/-- gemini.rs `build_block`, textually identical to the codex.rs one. -/
def build_block : AgentDefinition → List Char := codex.build_block

end gemini

namespace claude

/-- `build_frontmatter_md` (agents/claude.rs): YAML frontmatter (`name`, and
`description` when present and non-empty) followed by a blank line and the
content, newline-terminated. -/
def build_frontmatter_md (agent : AgentDefinition) : List Char :=
  (fun fm => if fm.getLast? = some '\n' then fm else fm ++ ['\n'])
    ("---\n".data ++ "name: ".data ++ agent.name ++ ['\n'] ++
      (match agent.description with
       | some desc => if desc ≠ [] then "description: ".data ++ desc ++ ['\n'] else []
       | none => []) ++ "---\n".data ++ ['\n'] ++ agent.content)

end claude

namespace opencode

/-- `build_frontmatter_md` (agents/opencode.rs), textually identical to the
claude.rs one; the embedding shares the definition. -/
def build_frontmatter_md : AgentDefinition → List Char := claude.build_frontmatter_md

end opencode

/-- The slice of the filesystem touched by agent synchronization: one file per
agent id for Claude (`~/.claude/agents/{id}.md`) and OpenCode
(`~/.config/opencode/agents/{id}.md`), one shared file for Codex
(`~/.codex/AGENTS.md`) and Gemini (`~/.gemini/GEMINI.md`); `none` = absent. -/
structure AgentFS where
  claudeAgents : List Char → Option (List Char)
  opencodeAgents : List Char → Option (List Char)
  codexAgentsMd : Option (List Char)
  geminiMd : Option (List Char)

/-- `sync_agent_to_app` (agents/mod.rs): dispatch `write_agent` by tool.
Claude/OpenCode overwrite the agent's own file; Codex/Gemini read the shared
file (empty if absent) and upsert the block; OpenClaw is an explicit no-op
success. -/
def sync_agent_to_app (agent : AgentDefinition) (app : AppType) (fs : AgentFS) :
    AgentFS :=
  match app with
  | AppType.Claude =>
      { fs with claudeAgents := fun i =>
          if i = agent.id then some (claude.build_frontmatter_md agent)
          else fs.claudeAgents i }
  | AppType.Codex =>
      { fs with
        codexAgentsMd := some (codex.upsert_block (fs.codexAgentsMd.getD []) agent) }
  | AppType.Gemini =>
      { fs with
        geminiMd := some (gemini.upsert_block (fs.geminiMd.getD []) agent) }
  | AppType.OpenCode =>
      { fs with opencodeAgents := fun i =>
          if i = agent.id then some (opencode.build_frontmatter_md agent)
          else fs.opencodeAgents i }
  | AppType.OpenClaw => fs

/-- `remove_agent_from_app` (agents/mod.rs): dispatch `remove_agent` by tool.
Claude/OpenCode delete the file if present; Codex/Gemini are no-ops when the
shared file is absent, else remove the block; OpenClaw is a no-op success. -/
def remove_agent_from_app (id : List Char) (app : AppType) (fs : AgentFS) :
    AgentFS :=
  match app with
  | AppType.Claude =>
      { fs with claudeAgents := fun i => if i = id then none else fs.claudeAgents i }
  | AppType.Codex =>
      match fs.codexAgentsMd with
      | none => fs
      | some c => { fs with codexAgentsMd := some (codex.remove_block c id) }
  | AppType.Gemini =>
      match fs.geminiMd with
      | none => fs
      | some c => { fs with geminiMd := some (gemini.remove_block c id) }
  | AppType.OpenCode =>
      { fs with opencodeAgents := fun i => if i = id then none else fs.opencodeAgents i }
  | AppType.OpenClaw => fs

/-- A call into the sync dispatcher, recorded as an event by the service
embedding (the model assumes the success path of the `?` operators). -/
inductive DispatchCall where
  | sync (agent : AgentDefinition) (app : AppType)
  | remove (id : List Char) (app : AppType)
  deriving DecidableEq, Repr

/-- Interpret a recorded call sequence against the agent filesystem. -/
def applyCalls (fs : AgentFS) : List DispatchCall → AgentFS
  | [] => fs
  | DispatchCall.sync agent app :: r => applyCalls (sync_agent_to_app agent app fs) r
  | DispatchCall.remove id app :: r => applyCalls (remove_agent_from_app id app fs) r

/-- `Database::get_agent_by_id` (dao/agents.rs) over the modelled store. -/
def findAgent (db : List AgentDefinition) (id : List Char) : Option AgentDefinition :=
  db.find? (fun a => a.id == id)

/-- `Database::save_agent` (dao/agents.rs): `INSERT OR REPLACE` keyed by id. -/
def saveAgent (db : List AgentDefinition) (agent : AgentDefinition) :
    List AgentDefinition :=
  if db.any (fun a => a.id == agent.id) then
    db.map (fun a => if a.id == agent.id then agent else a)
  else db ++ [agent]

/-- Modelled from the spec: `McpApps::enabled_apps` (app_config.rs, not among
the analysed sources).  Spec section 4.4 syncs "for every tool where
new.enabled[tool] == true"; modelled as the supported tools in field order
filtered by their flag. -/
def enabled_apps (m : McpApps) : List AppType :=
  (if m.claude then [AppType.Claude] else []) ++
  (if m.codex then [AppType.Codex] else []) ++
  (if m.gemini then [AppType.Gemini] else []) ++
  (if m.opencode then [AppType.OpenCode] else [])

/-- Modelled from the spec: `McpApps::set_enabled_for` (app_config.rs, not
among the analysed sources).  Spec section 4.4: toggle "flips one tool's flag
only"; the OpenClaw alias maps to the opencode flag, matching the prompt-side
convention of services/prompt.rs. -/
def set_enabled_for (m : McpApps) (app : AppType) (enabled : Bool) : McpApps :=
  match app with
  | AppType.Claude => { m with claude := enabled }
  | AppType.Codex => { m with codex := enabled }
  | AppType.Gemini => { m with gemini := enabled }
  | AppType.OpenCode => { m with opencode := enabled }
  | AppType.OpenClaw => { m with opencode := enabled }

/-- Reading of one agent flag per tool (OpenClaw has no agent flag). -/
def mcpFlag (m : McpApps) : AppType → Bool
  | AppType.Claude => m.claude
  | AppType.Codex => m.codex
  | AppType.Gemini => m.gemini
  | AppType.OpenCode => m.opencode
  | AppType.OpenClaw => false

/-- The previously stored flags read at the start of `AgentsService::upsert`
(`unwrap_or_default` when the id is absent). -/
def prevApps (db : List AgentDefinition) (id : List Char) : McpApps :=
  ((findAgent db id).map AgentDefinition.apps).getD {}

namespace AgentsService

/-- The four disable-removal calls of `AgentsService::upsert`
(services/agents.rs), in source order Claude, Codex, Gemini, OpenCode. -/
def upsertRemoves (db : List AgentDefinition) (agent : AgentDefinition) :
    List DispatchCall :=
  (if (prevApps db agent.id).claude ∧ ¬ agent.apps.claude then
      [DispatchCall.remove agent.id AppType.Claude] else []) ++
  (if (prevApps db agent.id).codex ∧ ¬ agent.apps.codex then
      [DispatchCall.remove agent.id AppType.Codex] else []) ++
  (if (prevApps db agent.id).gemini ∧ ¬ agent.apps.gemini then
      [DispatchCall.remove agent.id AppType.Gemini] else []) ++
  (if (prevApps db agent.id).opencode ∧ ¬ agent.apps.opencode then
      [DispatchCall.remove agent.id AppType.OpenCode] else [])

/-- `AgentsService::upsert` (services/agents.rs): read previous flags, save to
the store, remove from every tool going enabled→disabled, then sync to every
enabled tool (`sync_agent_to_apps`); dispatcher calls recorded in order. -/
def upsert (db : List AgentDefinition) (agent : AgentDefinition) :
    List AgentDefinition × List DispatchCall :=
  (saveAgent db agent,
    upsertRemoves db agent ++
      (enabled_apps agent.apps).map (fun t => DispatchCall.sync agent t))

/-- `AgentsService::toggle_app` (services/agents.rs): a missing id is a
silent success; otherwise flip the flag, save, and sync or remove. -/
def toggle_app (db : List AgentDefinition) (agent_id : List Char) (app : AppType)
    (enabled : Bool) : List AgentDefinition × List DispatchCall :=
  match findAgent db agent_id with
  | none => (db, [])
  | some agent0 =>
      if enabled then
        (saveAgent db { agent0 with apps := set_enabled_for agent0.apps app enabled },
         [DispatchCall.sync { agent0 with apps := set_enabled_for agent0.apps app enabled } app])
      else
        (saveAgent db { agent0 with apps := set_enabled_for agent0.apps app enabled },
         [DispatchCall.remove agent_id app])

end AgentsService

/-- `PromptApps` (prompt.rs). -/
structure PromptApps where
  claude : Bool := false
  codex : Bool := false
  gemini : Bool := false
  opencode : Bool := false
  deriving DecidableEq, Repr

/-- `Prompt` (prompt.rs). -/
structure Prompt where
  id : String
  name : String
  content : String
  description : Option String := none
  apps : PromptApps := {}
  created_at : Option Int := none
  updated_at : Option Int := none
  deriving DecidableEq, Repr

/-- `AppError` (error.rs, reconstructed from its uses in the sources). -/
inductive AppError where
  | Database (msg : String)
  | InvalidInput (msg : String)
  | Message (msg : String)
  | Io (msg : String)
  deriving DecidableEq, Repr

/-- `app_to_col` (services/prompt.rs): map a tool to its database column;
OpenClaw aliases the opencode column. -/
def app_to_col (app : AppType) : String :=
  match app with
  | AppType.Claude => "claude_enabled"
  | AppType.Codex => "codex_enabled"
  | AppType.Gemini => "gemini_enabled"
  | AppType.OpenCode => "opencode_enabled"
  | AppType.OpenClaw => "opencode_enabled"

/-- `app_enabled` (services/prompt.rs): read a tool's flag; OpenClaw reads the
opencode flag. -/
def app_enabled (apps : PromptApps) (app : AppType) : Bool :=
  match app with
  | AppType.Claude => apps.claude
  | AppType.Codex => apps.codex
  | AppType.Gemini => apps.gemini
  | AppType.OpenCode => apps.opencode
  | AppType.OpenClaw => apps.opencode

/-- Effect of the dynamic `UPDATE prompts SET {col} = b` of dao/prompts.rs on
one row. -/
def setCol (p : Prompt) (col : String) (b : Bool) : Prompt :=
  if col = "claude_enabled" then { p with apps := { p.apps with claude := b } }
  else if col = "codex_enabled" then { p with apps := { p.apps with codex := b } }
  else if col = "gemini_enabled" then { p with apps := { p.apps with gemini := b } }
  else if col = "opencode_enabled" then { p with apps := { p.apps with opencode := b } }
  else p

/-- The store contents produced by `Database::toggle_prompt_app` for an
allowed column: enabling clears the column on every row and then sets it on
the matching id; disabling clears it on the matching id only. -/
def daoApply (db : List Prompt) (id : String) (col : String) (enabled : Bool) :
    List Prompt :=
  if enabled then
    (db.map (fun p => setCol p col false)).map
      (fun p => if p.id = id then setCol p col true else p)
  else
    db.map (fun p => if p.id = id then setCol p col false else p)

namespace Database

/-- `Database::toggle_prompt_app` (database/dao/prompts.rs lines 104-131):
validate the column against the allow-list, then apply the two UPDATE
statements. -/
def toggle_prompt_app (db : List Prompt) (id : String) (app_col : String)
    (enabled : Bool) : Except AppError (List Prompt) :=
  if app_col = "claude_enabled" ∨ app_col = "codex_enabled" ∨
      app_col = "gemini_enabled" ∨ app_col = "opencode_enabled" then
    Except.ok (daoApply db id app_col enabled)
  else
    Except.error (AppError.InvalidInput ("invalid app_col: " ++ app_col))

end Database

/-- `IndexMap::get` over the modelled prompt store (`prompts.get(id)`). -/
def getPrompt (db : List Prompt) (id : String) : Option Prompt :=
  db.find? (fun p => p.id == id)

/-- Prompt-file slice of the filesystem, keyed by tool.  `prompt_file_path`
(prompt_files.rs, not among the analysed sources) is modelled from the spec as
a per-tool file location, represented here by the tool itself; `none` =
absent file. -/
def PromptFS : Type := AppType → Option String

/-- Modelled from the spec: `write_text_file` (config.rs, not among the
analysed sources) is a whole-file overwrite that creates the file. -/
def writeFS (fs : PromptFS) (app : AppType) (text : String) : PromptFS :=
  fun a => if a = app then some text else fs a

/-- `sync_app_file` (services/prompt.rs): write the tool's prompt file; empty
content clears the file. -/
def sync_app_file (fs : PromptFS) (app : AppType) (content : Option String) :
    PromptFS :=
  writeFS fs app (content.getD "")

/-- Store plus prompt files, the state threaded through `PromptService`. -/
structure PromptState where
  prompts : List Prompt
  files : PromptFS

namespace PromptService

/-- `PromptService::toggle_prompt_app` (services/prompt.rs lines 126-154):
toggle the column in the store, then either write the enabled prompt's content
to the tool's file, or, when disabling leaves no prompt enabled for the tool,
truncate the tool's file if it exists (write errors discarded). -/
def toggle_prompt_app (st : PromptState) (id : String) (app : AppType)
    (enabled : Bool) : Except AppError PromptState :=
  match Database.toggle_prompt_app st.prompts id (app_to_col app) enabled with
  | Except.error e => Except.error e
  | Except.ok db2 =>
      if enabled then
        match getPrompt db2 id with
        | some p => Except.ok ⟨db2, sync_app_file st.files app (some p.content)⟩
        | none => Except.ok ⟨db2, st.files⟩
      else
        if db2.any (fun p => app_enabled p.apps app) then
          Except.ok ⟨db2, st.files⟩
        else
          match st.files app with
          | some _ => Except.ok ⟨db2, writeFS st.files app ""⟩
          | none => Except.ok ⟨db2, st.files⟩

end PromptService

/-- Concrete two-prompt store for the mutual-exclusion witness: the first
prompt currently holds the Claude flag, the second is being enabled. -/
def stTwo : PromptState :=
  ⟨[{ id := "p1", name := "n1", content := "c1", apps := { claude := true } },
    { id := "p2", name := "n2", content := "c2" }], fun _ => none⟩

/-- The state after enabling prompt `p2` for Claude in `stTwo`. -/
def stTwoAfter : PromptState :=
  ⟨[{ id := "p1", name := "n1", content := "c1" },
    { id := "p2", name := "n2", content := "c2", apps := { claude := true } }],
   writeFS (fun _ => none) AppType.Claude "c2"⟩

/-- An empty agent filesystem for witnesses. -/
def fs0 : AgentFS := ⟨fun _ => none, fun _ => none, none, none⟩

/-- A prompt enabled only for Claude. -/
def promptP : Prompt :=
  { id := "p", name := "n", content := "c", apps := { claude := true } }

/-- Store with `promptP` and no prompt files on disk. -/
def stC8 : PromptState := ⟨[promptP], fun _ => none⟩

/-- Store with `promptP` and an existing Claude prompt file. -/
def stC8f : PromptState :=
  ⟨[promptP], fun a => if a = AppType.Claude then some "x" else none⟩

/-- A prompt enabled only for OpenCode. -/
def promptOc : Prompt :=
  { id := "p", name := "n", content := "c", apps := { opencode := true } }

/-- The same prompt with all flags off. -/
def promptOcOff : Prompt := { id := "p", name := "n", content := "c" }

/-- Store with `promptOc` and a prompt file present for every tool. -/
def stOc : PromptState := ⟨[promptOc], fun _ => some "y"⟩

/-- Result of disabling `promptOc` for OpenClaw on `stOc`. -/
def stOcClaw : PromptState :=
  ⟨[promptOcOff], writeFS (fun _ => some "y") AppType.OpenClaw ""⟩

/-- Result of disabling `promptOc` for OpenCode on `stOc`. -/
def stOcCode : PromptState :=
  ⟨[promptOcOff], writeFS (fun _ => some "y") AppType.OpenCode ""⟩

theorem isPrefixOf_iff_take {n s : List Char} :
    n.isPrefixOf s = true ↔ s.take n.length = n := by
  induction n generalizing s with
  | nil => simp
  | cons a as ih =>
    cases s with
    | nil => simp
    | cons b bs =>
      simp only [List.isPrefixOf_cons₂, List.length_cons, List.take_succ_cons,
        Bool.and_eq_true, beq_iff_eq, List.cons.injEq, ih]
      constructor
      · rintro ⟨h1, h2⟩; exact ⟨h1.symm, h2⟩
      · rintro ⟨h1, h2⟩; exact ⟨h1.symm, h2⟩

theorem occursAt_zero_iff {n s : List Char} :
    occursAt s n 0 ↔ n.isPrefixOf s = true := by
  rw [occursAt, List.drop_zero, isPrefixOf_iff_take]

theorem occursAt_cons_succ {n s : List Char} {c : Char} {i : Nat} :
    occursAt (c :: s) n (i + 1) ↔ occursAt s n i := by
  rw [occursAt, occursAt, List.drop_succ_cons]

theorem occursAt_length {s n : List Char} {i : Nat} (h : occursAt s n i)
    (hn : n ≠ []) : i + n.length ≤ s.length := by
  have hlen := congrArg List.length h
  rw [List.length_take, List.length_drop] at hlen
  have hnl : n.length ≠ 0 := by
    intro h0; exact hn (List.eq_nil_of_length_eq_zero h0)
  omega

theorem findSubstr?_nil (n : List Char) :
    findSubstr? [] n = if n.isPrefixOf [] then some 0 else none := rfl

theorem findSubstr?_cons (c : Char) (t n : List Char) :
    findSubstr? (c :: t) n =
      if n.isPrefixOf (c :: t) then some 0 else (findSubstr? t n).map (· + 1) := rfl

theorem findSubstr?_eq_some_iff {s n : List Char} {i : Nat} :
    findSubstr? s n = some i ↔
      occursAt s n i ∧ ∀ j, j < i → ¬ occursAt s n j := by
  induction s generalizing i with
  | nil =>
    by_cases hp : n.isPrefixOf ([] : List Char) = true
    · have hocc : ∀ j : Nat, occursAt ([] : List Char) n j := by
        intro j
        have hn : n = [] := by simpa using isPrefixOf_iff_take.mp hp
        simp [occursAt, hn]
      rw [findSubstr?_nil, if_pos hp]
      simp only [Option.some.injEq]
      constructor
      · rintro rfl; exact ⟨hocc 0, by omega⟩
      · rintro ⟨-, hmin⟩
        by_contra hne
        exact hmin 0 (by omega) (hocc 0)
    · have hocc : ∀ j : Nat, ¬ occursAt ([] : List Char) n j := by
        intro j hj
        have : n.isPrefixOf ([] : List Char) = true := by
          rw [isPrefixOf_iff_take]
          simpa [occursAt] using hj
        exact hp this
      rw [findSubstr?_nil, if_neg hp]
      constructor
      · intro h; cases h
      · rintro ⟨h, -⟩; exact absurd h (hocc i)
  | cons c t ih =>
    by_cases hp : n.isPrefixOf (c :: t) = true
    · rw [findSubstr?_cons, if_pos hp]
      simp only [Option.some.injEq]
      constructor
      · rintro rfl
        exact ⟨occursAt_zero_iff.mpr hp, by omega⟩
      · rintro ⟨-, hmin⟩
        by_contra hne
        exact hmin 0 (by omega) (occursAt_zero_iff.mpr hp)
    · rw [findSubstr?_cons, if_neg hp]
      cases i with
      | zero =>
        simp only [Option.map_eq_some']
        constructor
        · rintro ⟨k, -, hk⟩; omega
        · rintro ⟨h0, -⟩
          exact absurd (occursAt_zero_iff.mp h0) hp
      | succ k =>
        simp only [Option.map_eq_some']
        constructor
        · rintro ⟨m, hm, hmk⟩
          have hmk' : m = k := by omega
          subst hmk'
          obtain ⟨hocc, hmin⟩ := ih.mp hm
          refine ⟨occursAt_cons_succ.mpr hocc, ?_⟩
          intro j hj
          cases j with
          | zero => exact fun h0 => hp (occursAt_zero_iff.mp h0)
          | succ j' =>
            intro hj'
            exact hmin j' (by omega) (occursAt_cons_succ.mp hj')
        · rintro ⟨hocc, hmin⟩
          refine ⟨k, ih.mpr ⟨occursAt_cons_succ.mp hocc, ?_⟩, rfl⟩
          intro j hj hjo
          exact hmin (j + 1) (by omega) (occursAt_cons_succ.mpr hjo)

theorem findSubstr?_eq_none_iff {s n : List Char} :
    findSubstr? s n = none ↔ ∀ j, ¬ occursAt s n j := by
  induction s with
  | nil =>
    by_cases hp : n.isPrefixOf ([] : List Char) = true
    · have hn : n = [] := by simpa using isPrefixOf_iff_take.mp hp
      rw [findSubstr?_nil, if_pos hp]
      simp [occursAt, hn]
    · constructor
      · intro _ j hj
        have : n.isPrefixOf ([] : List Char) = true := by
          rw [isPrefixOf_iff_take]; simpa [occursAt] using hj
        exact hp this
      · intro _; rw [findSubstr?_nil, if_neg hp]
  | cons c t ih =>
    by_cases hp : n.isPrefixOf (c :: t) = true
    · constructor
      · intro h; rw [findSubstr?_cons, if_pos hp] at h; cases h
      · intro hall
        exact absurd (occursAt_zero_iff.mpr hp) (hall 0)
    · rw [findSubstr?_cons, if_neg hp]
      simp only [Option.map_eq_none', ih]
      constructor
      · intro hall j
        cases j with
        | zero => exact fun h0 => hp (occursAt_zero_iff.mp h0)
        | succ j' => exact fun hj => hall j' (occursAt_cons_succ.mp hj)
      · intro hall j hj
        exact hall (j + 1) (occursAt_cons_succ.mpr hj)

theorem findSubstr?_of_first {s n : List Char} {i : Nat} (hocc : occursAt s n i)
    (hmin : ∀ j, j < i → ¬ occursAt s n j) : findSubstr? s n = some i :=
  findSubstr?_eq_some_iff.mpr ⟨hocc, hmin⟩

namespace codex

theorem upsert_block_found {content : List Char} {agent : AgentDefinition} {sp ep : Nat}
    (hs : findSubstr? content (start_marker agent.id) = some sp)
    (he : findSubstr? content (end_marker agent.id) = some ep) :
    upsert_block content agent = replaceRange content agent sp ep := by
  unfold upsert_block
  rw [hs, he]

theorem upsert_block_not_found {content : List Char} {agent : AgentDefinition}
    (h : findSubstr? content (start_marker agent.id) = none ∨
         findSubstr? content (end_marker agent.id) = none) :
    upsert_block content agent = padBlank content ++ build_block agent := by
  unfold upsert_block
  cases hs : findSubstr? content (start_marker agent.id) with
  | none => rfl
  | some sp =>
      cases he : findSubstr? content (end_marker agent.id) with
      | none => rfl
      | some ep => rw [hs, he] at h; rcases h with h | h <;> cases h

theorem remove_block_found {content : List Char} {id : List Char} {sp ep : Nat}
    (hs : findSubstr? content (start_marker id) = some sp)
    (he : findSubstr? content (end_marker id) = some ep) :
    remove_block content id =
      content.take (removeAdjStart content sp) ++
        content.drop (skipLeadingNl content (ep + (end_marker id).length)) := by
  unfold remove_block
  rw [hs, he]

theorem remove_block_not_found {content : List Char} {id : List Char}
    (h : findSubstr? content (start_marker id) = none ∨
         findSubstr? content (end_marker id) = none) :
    remove_block content id = content := by
  unfold remove_block
  cases hs : findSubstr? content (start_marker id) with
  | none => rfl
  | some sp =>
      cases he : findSubstr? content (end_marker id) with
      | none => rfl
      | some ep => rw [hs, he] at h; rcases h with h | h <;> cases h

theorem getLast?_append_ne {l r : List Char} (h : r ≠ []) :
    (l ++ r).getLast? = r.getLast? := by
  rw [List.getLast?_append]
  cases hr : r.getLast? with
  | none => exact absurd (List.getLast?_eq_none_iff.mp hr) h
  | some y => rfl

theorem blockBody_getLast {agent : AgentDefinition} :
    (blockBody agent).getLast? = some '\n' ↔
      (agent.content = [] ∨ agent.content.getLast? = some '\n') := by
  unfold blockBody
  by_cases hne : agent.content = []
  · rw [hne]
    rw [List.append_nil, getLast?_append_ne (by simp)]
    simp
  · rw [getLast?_append_ne hne]
    constructor
    · intro h; exact Or.inr h
    · rintro (h | h)
      · exact absurd h hne
      · exact h

theorem build_block_eq (agent : AgentDefinition) :
    build_block agent =
      start_marker agent.id ++ blockMid agent ++ end_marker agent.id ++ ['\n'] := by
  unfold build_block blockMid contentNl
  by_cases hc : agent.content = [] ∨ agent.content.getLast? = some '\n'
  · rw [if_pos hc, if_pos (blockBody_getLast.mpr hc)]
    simp [blockBody]
  · rw [if_neg hc]
    have : ¬ ((blockBody agent).getLast? = some '\n') := fun h => hc (blockBody_getLast.mp h)
    rw [if_neg this]
    simp [blockBody]

theorem start_marker_cons (id : List Char) :
    start_marker id = '<' :: ("!-- cc-switch:agent:".data ++ id ++ " -->".data) := by
  have h : "<!-- cc-switch:agent:".data = '<' :: "!-- cc-switch:agent:".data := by decide
  simp [start_marker, h]

theorem end_marker_cons (id : List Char) :
    end_marker id = '<' :: ("!-- /cc-switch:agent:".data ++ id ++ " -->".data) := by
  have h : "<!-- /cc-switch:agent:".data = '<' :: "!-- /cc-switch:agent:".data := by decide
  simp [end_marker, h]

theorem start_marker_length (id : List Char) :
    (start_marker id).length = id.length + 25 := by
  have h1 : ("<!-- cc-switch:agent:".data).length = 21 := by decide
  have h2 : (" -->".data).length = 4 := by decide
  simp only [start_marker, List.length_append, h1, h2]
  omega

theorem end_marker_length (id : List Char) :
    (end_marker id).length = id.length + 26 := by
  have h1 : ("<!-- /cc-switch:agent:".data).length = 22 := by decide
  have h2 : (" -->".data).length = 4 := by decide
  simp only [end_marker, List.length_append, h1, h2]
  omega

theorem start_marker_head (id : List Char) : (start_marker id)[0]? = some '<' := by
  rw [start_marker_cons]; rfl

theorem end_marker_head (id : List Char) : (end_marker id)[0]? = some '<' := by
  rw [end_marker_cons]; rfl

theorem start_marker_interior {id : List Char} (hid : '<' ∉ id) :
    ∀ m, 0 < m → (start_marker id)[m]? ≠ some '<' := by
  intro m hm hcon
  rw [start_marker_cons] at hcon
  cases m with
  | zero => omega
  | succ k =>
    rw [List.getElem?_cons_succ] at hcon
    have hmem := List.getElem?_mem hcon
    rcases List.mem_append.mp hmem with h1 | h1
    · rcases List.mem_append.mp h1 with h2 | h2
      · exact absurd h2 (by decide)
      · exact hid h2
    · exact absurd h1 (by decide)

theorem end_marker_interior {id : List Char} (hid : '<' ∉ id) :
    ∀ m, 0 < m → (end_marker id)[m]? ≠ some '<' := by
  intro m hm hcon
  rw [end_marker_cons] at hcon
  cases m with
  | zero => omega
  | succ k =>
    rw [List.getElem?_cons_succ] at hcon
    have hmem := List.getElem?_mem hcon
    rcases List.mem_append.mp hmem with h1 | h1
    · rcases List.mem_append.mp h1 with h2 | h2
      · exact absurd h2 (by decide)
      · exact hid h2
    · exact absurd h1 (by decide)

theorem start_marker_five (id : List Char) : (start_marker id)[5]? = some 'c' := by
  unfold start_marker
  have h1 : ("<!-- cc-switch:agent:".data).length = 21 := by decide
  have h2 : (5:Nat) < ("<!-- cc-switch:agent:".data ++ id).length := by
    rw [List.length_append, h1]; omega
  rw [List.getElem?_append_left h2, List.getElem?_append_left (by rw [h1]; omega)]
  decide

theorem end_marker_five (id : List Char) : (end_marker id)[5]? = some '/' := by
  unfold end_marker
  have h1 : ("<!-- /cc-switch:agent:".data).length = 22 := by decide
  have h2 : (5:Nat) < ("<!-- /cc-switch:agent:".data ++ id).length := by
    rw [List.length_append, h1]; omega
  rw [List.getElem?_append_left h2, List.getElem?_append_left (by rw [h1]; omega)]
  decide

theorem start_marker_getLast (id : List Char) :
    (start_marker id).getLast? = some '>' := by
  unfold start_marker
  rw [getLast?_append_ne (by decide)]
  decide

theorem end_marker_getLast (id : List Char) :
    (end_marker id).getLast? = some '>' := by
  unfold end_marker
  rw [getLast?_append_ne (by decide)]
  decide

theorem lt_not_mem_contentNl {c : List Char} (h : '<' ∉ c) : '<' ∉ contentNl c := by
  unfold contentNl
  split
  · exact h
  · intro hmem
    rcases List.mem_append.mp hmem with h1 | h1
    · exact h h1
    · exact absurd h1 (by decide)

theorem lt_not_mem_blockMid {agent : AgentDefinition} (hn : '<' ∉ agent.name)
    (hco : '<' ∉ agent.content) : '<' ∉ blockMid agent := by
  unfold blockMid
  intro hmem
  rcases List.mem_append.mp hmem with h1 | h1
  · rcases List.mem_append.mp h1 with h2 | h2
    · rcases List.mem_append.mp h2 with h3 | h3
      · rcases List.mem_append.mp h3 with h4 | h4
        · exact absurd h4 (by decide)
        · exact hn h4
      · exact absurd h3 (by decide)
    · exact lt_not_mem_contentNl hco h2
  · exact absurd h1 (by decide)

theorem block_split (agent : AgentDefinition) :
    build_block agent =
      (start_marker agent.id ++ blockMid agent) ++ (end_marker agent.id ++ ['\n']) := by
  rw [build_block_eq]; simp [List.append_assoc]

theorem block_drop_endPos (agent : AgentDefinition) :
    (build_block agent).drop (endPos agent) = end_marker agent.id ++ ['\n'] := by
  rw [block_split, endPos, ← List.length_append]
  exact List.drop_left _ _

theorem block_take_start (agent : AgentDefinition) :
    (build_block agent).take (start_marker agent.id).length = start_marker agent.id := by
  have h : build_block agent =
      start_marker agent.id ++ (blockMid agent ++ (end_marker agent.id ++ ['\n'])) := by
    rw [build_block_eq]; simp [List.append_assoc]
  rw [h]
  exact List.take_left _ _

theorem block_length (agent : AgentDefinition) :
    (build_block agent).length = endPos agent + (end_marker agent.id).length + 1 := by
  rw [block_split]
  simp only [List.length_append, endPos, List.length_cons, List.length_nil]
  omega

theorem occursAt_block_start_zero (agent : AgentDefinition) :
    occursAt (build_block agent) (start_marker agent.id) 0 := by
  rw [occursAt, List.drop_zero, block_take_start]

theorem occursAt_block_end_endPos (agent : AgentDefinition) :
    occursAt (build_block agent) (end_marker agent.id) (endPos agent) := by
  rw [occursAt, block_drop_endPos]
  exact List.take_left _ _

theorem block_head (agent : AgentDefinition) : (build_block agent)[0]? = some '<' := by
  have h1 := block_take_start agent
  have h2 : (0:Nat) < (start_marker agent.id).length := by
    rw [start_marker_length]; omega
  calc (build_block agent)[0]?
      = ((build_block agent).take (start_marker agent.id).length)[0]? :=
        (List.getElem?_take_of_lt h2).symm
    _ = (start_marker agent.id)[0]? := by rw [h1]
    _ = some '<' := start_marker_head agent.id

theorem block_lt_pos {agent : AgentDefinition} (hc : cleanDef agent) {i : Nat}
    (h : (build_block agent)[i]? = some '<') : i = 0 ∨ i = endPos agent := by
  obtain ⟨hid, hn, hco⟩ := hc
  rw [block_split] at h
  have hlenU : (start_marker agent.id ++ blockMid agent).length = endPos agent := by
    rw [List.length_append]; rfl
  by_cases hi : i < endPos agent
  · rw [List.getElem?_append_left (by rw [hlenU]; exact hi)] at h
    have hcons : start_marker agent.id ++ blockMid agent =
        '<' :: (("!-- cc-switch:agent:".data ++ agent.id ++ " -->".data) ++ blockMid agent) := by
      rw [start_marker_cons]; simp
    rw [hcons] at h
    cases i with
    | zero => exact Or.inl rfl
    | succ k =>
      rw [List.getElem?_cons_succ] at h
      have hmem := List.getElem?_mem h
      exfalso
      rcases List.mem_append.mp hmem with h1 | h1
      · rcases List.mem_append.mp h1 with h2 | h2
        · rcases List.mem_append.mp h2 with h3 | h3
          · exact absurd h3 (by decide)
          · exact hid h3
        · exact absurd h2 (by decide)
      · exact lt_not_mem_blockMid hn hco h1
  · rw [List.getElem?_append_right (by rw [hlenU]; omega)] at h
    rw [hlenU] at h
    have hcons : end_marker agent.id ++ ['\n'] =
        '<' :: (("!-- /cc-switch:agent:".data ++ agent.id ++ " -->".data) ++ ['\n']) := by
      rw [end_marker_cons]; simp
    rw [hcons] at h
    cases hik : i - endPos agent with
    | zero => right; omega
    | succ k =>
      rw [hik, List.getElem?_cons_succ] at h
      have hmem := List.getElem?_mem h
      exfalso
      rcases List.mem_append.mp hmem with h1 | h1
      · rcases List.mem_append.mp h1 with h2 | h2
        · rcases List.mem_append.mp h2 with h3 | h3
          · exact absurd h3 (by decide)
          · exact hid h3
        · exact absurd h2 (by decide)
      · exact absurd h1 (by decide)

theorem occursAt_head_lt {s n : List Char} {q : Nat} (hocc : occursAt s n q)
    (hhead : n[0]? = some '<') (hlen : 0 < n.length) : s[q]? = some '<' := by
  have := congrArg (fun l => l[0]?) hocc
  simp only at this
  rw [List.getElem?_take_of_lt hlen, List.getElem?_drop] at this
  rw [← hhead, ← this, Nat.add_zero]

theorem block_start_unique {agent : AgentDefinition} (hc : cleanDef agent) {q : Nat}
    (hq : occursAt (build_block agent) (start_marker agent.id) q) : q = 0 := by
  have hbq : (build_block agent)[q]? = some '<' := by
    have := occursAt_head_lt hq (start_marker_head agent.id)
      (by rw [start_marker_length]; omega)
    simpa using this
  rcases block_lt_pos hc hbq with h0 | hE
  · exact h0
  · exfalso
    subst hE
    rw [occursAt, block_drop_endPos] at hq
    have h5lt : (5:Nat) < (start_marker agent.id).length := by
      rw [start_marker_length]; omega
    have := congrArg (fun l => l[5]?) hq
    simp only at this
    rw [List.getElem?_take_of_lt h5lt,
      List.getElem?_append_left (by rw [end_marker_length]; omega),
      end_marker_five, start_marker_five] at this
    exact absurd this (by decide)

theorem block_end_unique {agent : AgentDefinition} (hc : cleanDef agent) {q : Nat}
    (hq : occursAt (build_block agent) (end_marker agent.id) q) : q = endPos agent := by
  have hbq : (build_block agent)[q]? = some '<' := by
    have := occursAt_head_lt hq (end_marker_head agent.id)
      (by rw [end_marker_length]; omega)
    simpa using this
  rcases block_lt_pos hc hbq with h0 | hE
  · exfalso
    subst h0
    rw [occursAt, List.drop_zero] at hq
    have h5lt : (5:Nat) < (end_marker agent.id).length := by
      rw [end_marker_length]; omega
    have := congrArg (fun l => l[5]?) hq
    simp only at this
    rw [List.getElem?_take_of_lt h5lt, block_split,
      List.getElem?_append_left, List.getElem?_append_left, start_marker_five,
      end_marker_five] at this
    · exact absurd this (by decide)
    · rw [start_marker_length]; omega
    · rw [List.length_append, start_marker_length]; omega
  · exact hE

end codex

theorem occursAt_append_elim {a b n : List Char} {i : Nat}
    (h : occursAt (a ++ b) n i) :
    (occursAt a n i ∧ i + n.length ≤ a.length) ∨
    (a.length ≤ i ∧ occursAt b n (i - a.length)) ∨
    (i < a.length ∧ a.length < i + n.length ∧
      a.drop i ++ b.take (i + n.length - a.length) = n) := by
  rw [occursAt, List.drop_append_eq_append_drop] at h
  by_cases hia : a.length ≤ i
  · rw [List.drop_eq_nil_of_le hia, List.nil_append] at h
    exact Or.inr (Or.inl ⟨hia, h⟩)
  · push_neg at hia
    have hdi : i - a.length = 0 := by omega
    rw [hdi, List.drop_zero, List.take_append_eq_append_take, List.length_drop] at h
    by_cases hn : i + n.length ≤ a.length
    · have h0 : n.length - (a.length - i) = 0 := by omega
      rw [h0, List.take_zero, List.append_nil] at h
      exact Or.inl ⟨h, hn⟩
    · push_neg at hn
      have hta : (a.drop i).take n.length = a.drop i :=
        List.take_of_length_le (by rw [List.length_drop]; omega)
      rw [hta] at h
      have hidx : n.length - (a.length - i) = i + n.length - a.length := by omega
      rw [hidx] at h
      exact Or.inr (Or.inr ⟨hia, hn, h⟩)

theorem no_occ_cross {X R n : List Char} (hX : ∀ j, ¬ occursAt X n j)
    (hR : R[0]? = some '<') (hInt : ∀ m, 0 < m → n[m]? ≠ some '<')
    {j : Nat} (hj : j < X.length) : ¬ occursAt (X ++ R) n j := by
  intro h
  rcases occursAt_append_elim h with ⟨h1, -⟩ | ⟨hle, -⟩ | ⟨-, hlt, hcross⟩
  · exact hX j h1
  · omega
  · have hm0 : 0 < X.length - j := by omega
    have hmlen : X.length - j < n.length := by omega
    have hXd : (X.drop j).length = X.length - j := List.length_drop _ _
    have hk : 0 < j + n.length - X.length := by omega
    have hgc := congrArg (fun l => l[X.length - j]?) hcross
    simp only at hgc
    rw [List.getElem?_append_right (le_of_eq hXd), hXd, Nat.sub_self,
      List.getElem?_take_of_lt hk, hR] at hgc
    exact hInt (X.length - j) hm0 hgc.symm

namespace codex

theorem start_marker_le_block (agent : AgentDefinition) :
    (start_marker agent.id).length ≤ (build_block agent).length := by
  rw [block_length]
  unfold endPos
  omega

theorem block_length_pos (agent : AgentDefinition) :
    0 < (build_block agent).length := by
  rw [block_length]; omega

theorem block_append_head {agent : AgentDefinition} (Y : List Char) :
    (build_block agent ++ Y)[0]? = some '<' := by
  rw [List.getElem?_append_left (block_length_pos agent), block_head]

theorem findSubstr?_splice_start {agent : AgentDefinition} (hc : cleanDef agent)
    (X Y : List Char) (hX : ∀ j, ¬ occursAt X (start_marker agent.id) j) :
    findSubstr? (X ++ (build_block agent ++ Y)) (start_marker agent.id) =
      some X.length := by
  apply findSubstr?_of_first
  · rw [occursAt, List.drop_left,
      List.take_append_of_le_length (start_marker_le_block agent), block_take_start]
  · intro j hj
    exact no_occ_cross hX (block_append_head Y) (start_marker_interior hc.1) hj

theorem endPos_le_block (agent : AgentDefinition) :
    endPos agent ≤ (build_block agent).length := by
  rw [block_length]; omega

theorem findSubstr?_splice_end {agent : AgentDefinition} (hc : cleanDef agent)
    (X Y : List Char) (hX : ∀ j, ¬ occursAt X (end_marker agent.id) j) :
    findSubstr? (X ++ (build_block agent ++ Y)) (end_marker agent.id) =
      some (X.length + endPos agent) := by
  apply findSubstr?_of_first
  · rw [occursAt, List.drop_append,
      List.drop_append_of_le_length (endPos_le_block agent), block_drop_endPos,
      List.append_assoc]
    exact List.take_left _ _
  · intro j hj hocc
    by_cases hjX : j < X.length
    · exact no_occ_cross hX (block_append_head Y) (end_marker_interior hc.1) hjX hocc
    · push_neg at hjX
      have hBocc : occursAt (build_block agent ++ Y) (end_marker agent.id)
          (j - X.length) := by
        rcases occursAt_append_elim hocc with ⟨h1, -⟩ | ⟨-, h2⟩ | ⟨hlt, -, -⟩
        · exact absurd h1 (hX j)
        · exact h2
        · omega
      have hq : j - X.length < endPos agent := by omega
      rcases occursAt_append_elim hBocc with ⟨h1, -⟩ | ⟨hge, -⟩ | ⟨-, hlt2, -⟩
      · exact absurd (block_end_unique hc h1) (by omega)
      · have := block_length agent; omega
      · have hbl := block_length agent
        rw [end_marker_length] at hbl hlt2
        omega

theorem block_drop_end_skip (agent : AgentDefinition) :
    (build_block agent).drop (endPos agent + (end_marker agent.id).length) = ['\n'] := by
  rw [← List.drop_drop, block_drop_endPos]
  exact List.drop_left _ _

theorem endPos_add_end_le (agent : AgentDefinition) :
    endPos agent + (end_marker agent.id).length ≤ (build_block agent).length := by
  rw [block_length]; omega

theorem splice_drop_after_end {agent : AgentDefinition} (X Y : List Char) :
    (X ++ (build_block agent ++ Y)).drop
        (X.length + endPos agent + (end_marker agent.id).length) = '\n' :: Y := by
  rw [Nat.add_assoc, List.drop_append,
    List.drop_append_of_le_length (endPos_add_end_le agent), block_drop_end_skip]
  rfl

theorem splice_drop_block_length {agent : AgentDefinition} (X Y : List Char) :
    (X ++ (build_block agent ++ Y)).drop (X.length + (build_block agent).length) = Y := by
  rw [List.drop_append, List.drop_left]

theorem upsert_block_splice {agent : AgentDefinition} (hc : cleanDef agent)
    {X Y : List Char}
    (hXs : ∀ j, ¬ occursAt X (start_marker agent.id) j)
    (hXe : ∀ j, ¬ occursAt X (end_marker agent.id) j) :
    upsert_block (X ++ (build_block agent ++ Y)) agent =
      X ++ (build_block agent ++ Y) := by
  have hfs := findSubstr?_splice_start hc X Y hXs
  have hfe := findSubstr?_splice_end hc X Y hXe
  rw [upsert_block_found hfs hfe, replaceRange]
  have hskip : skipLeadingNl (X ++ (build_block agent ++ Y))
      (X.length + endPos agent + (end_marker agent.id).length) =
      X.length + (build_block agent).length := by
    unfold skipLeadingNl
    rw [splice_drop_after_end]
    have hhead : ('\n' :: Y).head? = some '\n' := rfl
    rw [if_pos hhead, block_length]
    omega
  rw [hskip, splice_drop_block_length, List.take_left, List.append_assoc]

theorem remove_block_splice {agent : AgentDefinition} (hc : cleanDef agent)
    {X Y : List Char}
    (hXs : ∀ j, ¬ occursAt X (start_marker agent.id) j)
    (hXe : ∀ j, ¬ occursAt X (end_marker agent.id) j) :
    remove_block (X ++ (build_block agent ++ Y)) agent.id =
      (if 0 < X.length ∧ endsWithSeq X ['\n', '\n'] = true then X.take (X.length - 1)
       else X) ++ Y := by
  have hfs := findSubstr?_splice_start hc X Y hXs
  have hfe := findSubstr?_splice_end hc X Y hXe
  rw [remove_block_found hfs hfe]
  have hskip : skipLeadingNl (X ++ (build_block agent ++ Y))
      (X.length + endPos agent + (end_marker agent.id).length) =
      X.length + (build_block agent).length := by
    unfold skipLeadingNl
    rw [splice_drop_after_end]
    have hhead : ('\n' :: Y).head? = some '\n' := rfl
    rw [if_pos hhead, block_length]
    omega
  rw [hskip, splice_drop_block_length]
  unfold removeAdjStart
  rw [List.take_left]
  by_cases hcond : 0 < X.length ∧ endsWithSeq X ['\n', '\n'] = true
  · rw [if_pos hcond, if_pos hcond,
      List.take_append_of_le_length (by omega : X.length - 1 ≤ X.length)]
  · rw [if_neg hcond, if_neg hcond, List.take_left]

theorem start_marker_ne_nil (id : List Char) : start_marker id ≠ [] := by
  rw [start_marker_cons]; simp

theorem end_marker_ne_nil (id : List Char) : end_marker id ≠ [] := by
  rw [end_marker_cons]; simp

theorem noOcc_nil {n : List Char} (hn : n ≠ []) :
    ∀ j, ¬ occursAt ([] : List Char) n j := by
  intro j h
  rw [occursAt] at h
  simp only [List.drop_nil, List.take_nil] at h
  exact hn h.symm

theorem occursAt_take_elim {H n : List Char} {sp j : Nat} (hn : n ≠ [])
    (h : occursAt (H.take sp) n j) : occursAt H n j ∧ j + n.length ≤ sp := by
  have hlen := occursAt_length h hn
  rw [List.length_take] at hlen
  have hj : j + n.length ≤ sp := by omega
  refine ⟨?_, hj⟩
  rw [occursAt] at h ⊢
  rw [List.drop_take, List.take_take, Nat.min_eq_left (by omega)] at h
  exact h

theorem noOcc_take_of_min {H n : List Char} {sp bound : Nat} (hn : n ≠ [])
    (hsp : sp ≤ bound) (hmin : ∀ j, j < bound → ¬ occursAt H n j) :
    ∀ j, ¬ occursAt (H.take sp) n j := by
  intro j hj
  obtain ⟨hocc, hle⟩ := occursAt_take_elim hn hj
  have hnl : 0 < n.length := List.length_pos.mpr hn
  exact hmin j (by omega) hocc

theorem noOcc_pad {H n p : List Char} (hH : ∀ j, ¬ occursAt H n j)
    (hp : ∀ c ∈ p, c = '\n') (hlast : n.getLast? = some '>') :
    ∀ j, ¬ occursAt (H ++ p) n j := by
  intro j h
  have hn : n ≠ [] := by
    intro he; rw [he] at hlast; simp at hlast
  rcases occursAt_append_elim h with ⟨h1, -⟩ | ⟨hle, h2⟩ | ⟨hlt1, hlt2, hcross⟩
  · exact hH j h1
  · have hsub : ∀ c ∈ n, c ∈ p := by
      intro c hcn
      rw [occursAt] at h2
      rw [← h2] at hcn
      exact List.mem_of_mem_drop (List.mem_of_mem_take hcn)
    have hgt : '>' ∈ n := List.mem_of_getLast?_eq_some hlast
    exact absurd (hp _ (hsub _ hgt)) (by decide)
  · have hlenb := occursAt_length h hn
    rw [List.length_append] at hlenb
    have hkpos : 0 < j + n.length - H.length := by omega
    have hkle : j + n.length - H.length ≤ p.length := by omega
    have hkne : p.take (j + n.length - H.length) ≠ [] := by
      intro he
      have hl := congrArg List.length he
      rw [List.length_take] at hl
      simp only [List.length_nil] at hl
      omega
    have hlast2 : n.getLast? = some '\n' := by
      rw [← hcross, getLast?_append_ne hkne]
      cases hgl : (p.take (j + n.length - H.length)).getLast? with
      | none => exact absurd (List.getLast?_eq_none_iff.mp hgl) hkne
      | some y =>
        have hy : y ∈ p := List.mem_of_mem_take (List.mem_of_getLast?_eq_some hgl)
        rw [hp y hy]
    rw [hlast] at hlast2
    exact absurd hlast2 (by decide)

theorem padBlank_exists (content : List Char) :
    ∃ p, padBlank content = content ++ p ∧ (∀ c ∈ p, c = '\n') := by
  unfold padBlank
  by_cases h1 : content ≠ [] ∧ content.getLast? ≠ some '\n'
  · rw [if_pos h1]
    by_cases h2 : content ++ ['\n'] ≠ [] ∧
        endsWithSeq (content ++ ['\n']) ['\n', '\n'] = false
    · rw [if_pos h2]
      refine ⟨['\n', '\n'], by simp, ?_⟩
      intro c hc
      rcases List.mem_cons.mp hc with rfl | hc2
      · rfl
      · rcases List.mem_cons.mp hc2 with rfl | hc3
        · rfl
        · cases hc3
    · rw [if_neg h2]
      refine ⟨['\n'], rfl, ?_⟩
      intro c hc
      rcases List.mem_cons.mp hc with rfl | hc2
      · rfl
      · cases hc2
  · rw [if_neg h1]
    by_cases h2 : content ≠ [] ∧ endsWithSeq content ['\n', '\n'] = false
    · rw [if_pos h2]
      refine ⟨['\n'], rfl, ?_⟩
      intro c hc
      rcases List.mem_cons.mp hc with rfl | hc2
      · rfl
      · cases hc2
    · rw [if_neg h2]
      exact ⟨[], by simp, by intro c hc; cases hc⟩

theorem upsert_shape_replace {H : List Char} {agent : AgentDefinition} {sp ep : Nat}
    (hs : findSubstr? H (start_marker agent.id) = some sp)
    (he : findSubstr? H (end_marker agent.id) = some ep)
    (hle : sp ≤ ep) :
    ∃ X Y, upsert_block H agent = X ++ (build_block agent ++ Y) ∧
      (∀ j, ¬ occursAt X (start_marker agent.id) j) ∧
      (∀ j, ¬ occursAt X (end_marker agent.id) j) := by
  obtain ⟨hoccs, hmins⟩ := findSubstr?_eq_some_iff.mp hs
  obtain ⟨hocce, hmine⟩ := findSubstr?_eq_some_iff.mp he
  refine ⟨H.take sp, H.drop (skipLeadingNl H (ep + (end_marker agent.id).length)),
    ?_, ?_, ?_⟩
  · rw [upsert_block_found hs he, replaceRange, List.append_assoc]
  · exact noOcc_take_of_min (start_marker_ne_nil agent.id) le_rfl hmins
  · exact noOcc_take_of_min (end_marker_ne_nil agent.id) hle hmine

theorem upsert_shape_append {H : List Char} {agent : AgentDefinition}
    (hs : findSubstr? H (start_marker agent.id) = none)
    (he : findSubstr? H (end_marker agent.id) = none) :
    upsert_block H agent = padBlank H ++ (build_block agent ++ []) ∧
      (∀ j, ¬ occursAt (padBlank H) (start_marker agent.id) j) ∧
      (∀ j, ¬ occursAt (padBlank H) (end_marker agent.id) j) := by
  obtain ⟨p, hp, hpc⟩ := padBlank_exists H
  refine ⟨?_, ?_, ?_⟩
  · rw [upsert_block_not_found (Or.inl hs), List.append_nil]
  · rw [hp]
    exact noOcc_pad (findSubstr?_eq_none_iff.mp hs) hpc (start_marker_getLast agent.id)
  · rw [hp]
    exact noOcc_pad (findSubstr?_eq_none_iff.mp he) hpc (end_marker_getLast agent.id)

theorem endsWithSeq_append_nl {H : List Char} (h : H.getLast? = some '\n') :
    endsWithSeq (H ++ ['\n']) ['\n', '\n'] = true := by
  obtain ⟨ys, hys⟩ := List.getLast?_eq_some_iff.mp h
  subst hys
  simp [endsWithSeq, List.reverse_append, List.isPrefixOf_cons₂]

theorem isPrefixOf_nl_reverse_false {H : List Char} (h : H.getLast? ≠ some '\n') :
    (['\n'] : List Char).isPrefixOf H.reverse = false := by
  cases hr : H.reverse with
  | nil => rfl
  | cons c r =>
    have hhead : H.getLast? = some c := by
      rw [← List.head?_reverse, hr]; rfl
    have hc : ¬ ('\n' = c) := by
      intro he; rw [← he] at hhead; exact h hhead
    rw [List.isPrefixOf_cons₂]
    simp only [List.isPrefixOf_nil_left, Bool.and_true]
    exact beq_eq_false_iff_ne.mpr hc

theorem endsWithSeq_two_append_of_ne {H : List Char} (h : H.getLast? ≠ some '\n') :
    endsWithSeq (H ++ ['\n']) ['\n', '\n'] = false := by
  unfold endsWithSeq
  rw [List.reverse_append]
  show (['\n', '\n'] : List Char).isPrefixOf ('\n' :: H.reverse) = false
  rw [List.isPrefixOf_cons₂]
  simp only [beq_self_eq_true, Bool.true_and]
  exact isPrefixOf_nl_reverse_false h

theorem endsWithSeq_two_append_two (H : List Char) :
    endsWithSeq (H ++ ['\n', '\n']) ['\n', '\n'] = true := by
  unfold endsWithSeq
  rw [List.reverse_append]
  show (['\n', '\n'] : List Char).isPrefixOf ('\n' :: '\n' :: H.reverse) = true
  simp [List.isPrefixOf_cons₂]

theorem endsWithSeq_three_append_one {H : List Char}
    (h : endsWithSeq H ['\n', '\n'] = false) :
    endsWithSeq (H ++ ['\n']) ['\n', '\n', '\n'] = false := by
  unfold endsWithSeq at h ⊢
  rw [List.reverse_append]
  show (['\n', '\n', '\n'] : List Char).isPrefixOf ('\n' :: H.reverse) = false
  rw [List.isPrefixOf_cons₂]
  simp only [beq_self_eq_true, Bool.true_and]
  exact h

theorem endsWithSeq_three_append_two_of_ne {H : List Char}
    (h : H.getLast? ≠ some '\n') :
    endsWithSeq (H ++ ['\n', '\n']) ['\n', '\n', '\n'] = false := by
  unfold endsWithSeq
  rw [List.reverse_append]
  show (['\n', '\n', '\n'] : List Char).isPrefixOf ('\n' :: '\n' :: H.reverse) = false
  rw [List.isPrefixOf_cons₂, List.isPrefixOf_cons₂]
  simp only [beq_self_eq_true, Bool.true_and]
  exact isPrefixOf_nl_reverse_false h

theorem padBlank_cases (H : List Char) :
    (H = [] ∧ padBlank H = []) ∨
    (H ≠ [] ∧ H.getLast? ≠ some '\n' ∧ padBlank H = H ++ ['\n', '\n']) ∨
    (H ≠ [] ∧ H.getLast? = some '\n' ∧ endsWithSeq H ['\n', '\n'] = false ∧
      padBlank H = H ++ ['\n']) ∨
    (H ≠ [] ∧ endsWithSeq H ['\n', '\n'] = true ∧ padBlank H = H) := by
  by_cases h0 : H = []
  · left
    refine ⟨h0, ?_⟩
    subst h0
    unfold padBlank
    rw [if_neg (by simp), if_neg (by simp)]
  · by_cases h1 : H.getLast? = some '\n'
    · have hr1 : (if H ≠ [] ∧ H.getLast? ≠ some '\n' then H ++ ['\n'] else H) = H :=
        if_neg (fun hcon => hcon.2 h1)
      by_cases h2 : endsWithSeq H ['\n', '\n'] = true
      · right; right; right
        refine ⟨h0, h2, ?_⟩
        unfold padBlank
        rw [hr1]
        rw [if_neg (fun hcon => by
          have hf := hcon.2; rw [h2] at hf; exact absurd hf (by decide))]
      · have h2' : endsWithSeq H ['\n', '\n'] = false := by
          cases he : endsWithSeq H ['\n', '\n']
          · rfl
          · exact absurd he h2
        right; right; left
        refine ⟨h0, h1, h2', ?_⟩
        unfold padBlank
        rw [hr1]
        rw [if_pos ⟨h0, h2'⟩]
    · right; left
      refine ⟨h0, h1, ?_⟩
      have hr1 : (if H ≠ [] ∧ H.getLast? ≠ some '\n' then H ++ ['\n'] else H) =
          H ++ ['\n'] := if_pos ⟨h0, h1⟩
      unfold padBlank
      rw [hr1]
      rw [if_pos ⟨by simp, endsWithSeq_two_append_of_ne h1⟩]
      simp

end codex

/-- C3 counterexample: `upsert_block` is not idempotent for every haystack and
definition: with an empty haystack and a definition whose content equals its
own end marker, the second upsert splices at the forged end marker inside the
content and duplicates text. -/
theorem upsert_block_not_idempotent_cex :
    codex.upsert_block (codex.upsert_block [] agentDirty) agentDirty ≠
      codex.upsert_block [] agentDirty := by decide

/-- C3 (amended): `upsert_block` is idempotent provided the definition's id,
name and content contain no `<` (so its markers occur in the built block only
at their intended positions) and the haystack either contains neither marker of
the id, or contains both with the first end marker at or after the first start
marker. -/
theorem upsert_block_idempotent_amended (H : List Char) (agent : AgentDefinition)
    (hclean : codex.cleanDef agent)
    (hH : (findSubstr? H (codex.start_marker agent.id) = none ∧
           findSubstr? H (codex.end_marker agent.id) = none) ∨
          (∃ sp ep, findSubstr? H (codex.start_marker agent.id) = some sp ∧
            findSubstr? H (codex.end_marker agent.id) = some ep ∧ sp ≤ ep)) :
    codex.upsert_block (codex.upsert_block H agent) agent =
      codex.upsert_block H agent := by
  rcases hH with ⟨hs, he⟩ | ⟨sp, ep, hs, he, hle⟩
  · obtain ⟨heq, hXs, hXe⟩ := codex.upsert_shape_append hs he
    rw [heq]
    exact codex.upsert_block_splice hclean hXs hXe
  · obtain ⟨X, Y, heq, hXs, hXe⟩ := codex.upsert_shape_replace hs he hle
    rw [heq]
    exact codex.upsert_block_splice hclean hXs hXe

/-- Witness for the amended C3 theorem at a concrete clean input. -/
theorem upsert_block_idempotent_amended_witness :
    codex.upsert_block (codex.upsert_block ['x'] agentClean) agentClean =
      codex.upsert_block ['x'] agentClean :=
  upsert_block_idempotent_amended ['x'] agentClean (by decide)
    (Or.inl ⟨by decide, by decide⟩)

/-- C9 counterexample: the exact round trip fails for a definition whose
content contains its own end marker, even on the empty haystack. -/
theorem codec_roundtrip_dirty_cex :
    findSubstr? ([] : List Char) (codex.start_marker agentDirty.id) = none ∧
    codex.remove_block (codex.upsert_block [] agentDirty) agentDirty.id ≠ [] := by
  decide

/-- C9 (amended): `remove_block (upsert_block H D) D.id = H` byte-for-byte,
provided the definition's id, name and content contain no `<`, the haystack
contains neither marker of the id, and the haystack is empty or ends with
exactly one newline (newline-terminated, not ending in a blank line). -/
theorem codec_roundtrip_amended (H : List Char) (agent : AgentDefinition)
    (hclean : codex.cleanDef agent)
    (hs : findSubstr? H (codex.start_marker agent.id) = none)
    (he : findSubstr? H (codex.end_marker agent.id) = none)
    (hnl : H = [] ∨ (H.getLast? = some '\n' ∧
      codex.endsWithSeq H ['\n', '\n'] = false)) :
    codex.remove_block (codex.upsert_block H agent) agent.id = H := by
  rcases hnl with rfl | ⟨hlast, hnb⟩
  · have hpad : codex.padBlank ([] : List Char) = [] := by
      unfold codex.padBlank
      rw [if_neg (by simp), if_neg (by simp)]
    rw [codex.upsert_block_not_found (Or.inl hs), hpad, List.nil_append]
    have hshape : codex.build_block agent = [] ++ (codex.build_block agent ++ []) := by
      simp
    rw [hshape, codex.remove_block_splice hclean
      (codex.noOcc_nil (codex.start_marker_ne_nil agent.id))
      (codex.noOcc_nil (codex.end_marker_ne_nil agent.id))]
    rw [if_neg (by simp)]
    simp
  · have hne : H ≠ [] := by
      intro h0; rw [h0] at hlast; simp at hlast
    have hpad : codex.padBlank H = H ++ ['\n'] := by
      have hr1 : (if H ≠ [] ∧ H.getLast? ≠ some '\n' then H ++ ['\n'] else H) = H :=
        if_neg (fun hcon => hcon.2 hlast)
      unfold codex.padBlank
      rw [hr1]
      rw [if_pos ⟨hne, hnb⟩]
    rw [codex.upsert_block_not_found (Or.inl hs), hpad]
    have hnlp : ∀ c ∈ ['\n'], c = '\n' := by
      intro c hc
      rcases List.mem_cons.mp hc with rfl | h
      · rfl
      · cases h
    have hXs := codex.noOcc_pad (findSubstr?_eq_none_iff.mp hs) hnlp
      (codex.start_marker_getLast agent.id)
    have hXe := codex.noOcc_pad (findSubstr?_eq_none_iff.mp he) hnlp
      (codex.end_marker_getLast agent.id)
    have hshape : (H ++ ['\n']) ++ codex.build_block agent =
        (H ++ ['\n']) ++ (codex.build_block agent ++ []) := by simp
    rw [hshape, codex.remove_block_splice hclean hXs hXe]
    have hcond : 0 < (H ++ ['\n']).length ∧
        codex.endsWithSeq (H ++ ['\n']) ['\n', '\n'] = true :=
      ⟨by simp, codex.endsWithSeq_append_nl hlast⟩
    rw [if_pos hcond]
    have hlen : (H ++ ['\n']).length - 1 = H.length := by simp
    rw [hlen, List.take_left, List.append_nil]

/-- Witness for the amended C9 theorem at a concrete clean input. -/
theorem codec_roundtrip_amended_witness :
    codex.remove_block (codex.upsert_block "hello\n".data agentClean) agentClean.id =
      "hello\n".data :=
  codec_roundtrip_amended "hello\n".data agentClean (by decide) (by decide) (by decide)
    (Or.inr ⟨by decide, by decide⟩)

/-- C5 counterexample: `upsert_block` does not search for the end marker after
the start position: on a haystack where an end marker precedes the first start
marker, the result differs from the replacement of the range ending at the
first end marker after the start (the code instead uses the globally first end
marker, duplicating text). -/
theorem upsert_replace_end_before_start_cex :
    findSubstr? H5cex (codex.start_marker ['a']) = some 27 ∧
    findSubstr? (H5cex.drop 27) (codex.end_marker ['a']) = some 26 ∧
    codex.upsert_block H5cex agentClean ≠
      H5cex.take 27 ++ codex.build_block agentClean ++
        H5cex.drop (codex.skipLeadingNl H5cex (53 + (codex.end_marker ['a']).length)) := by
  decide

/-- C5 (amended): when the haystack contains both markers and the first end
marker lies at or after the first start marker, `upsert_block` replaces
exactly the byte range from the first start marker through the first end
marker (which is then also the first end marker at or after the start
position) plus an optional trailing newline with the freshly built block,
leaving the prefix before the start marker and the suffix after the range in
place. -/
theorem upsert_replace_semantics_amended (H : List Char) (agent : AgentDefinition)
    (sp ep : Nat)
    (hs : findSubstr? H (codex.start_marker agent.id) = some sp)
    (he : findSubstr? H (codex.end_marker agent.id) = some ep)
    (hle : sp ≤ ep) :
    findSubstr? (H.drop sp) (codex.end_marker agent.id) = some (ep - sp) ∧
    codex.upsert_block H agent =
      H.take sp ++ codex.build_block agent ++
        H.drop (codex.skipLeadingNl H (ep + (codex.end_marker agent.id).length)) := by
  constructor
  · obtain ⟨hocc, hmin⟩ := findSubstr?_eq_some_iff.mp he
    apply findSubstr?_of_first
    · rw [occursAt, List.drop_drop]
      have hix : sp + (ep - sp) = ep := by omega
      rw [hix]
      exact hocc
    · intro j hj hja
      rw [occursAt, List.drop_drop] at hja
      exact hmin (sp + j) (by omega) hja
  · rw [codex.upsert_block_found hs he, codex.replaceRange]

/-- Witness for the amended C5 theorem at a concrete input. -/
theorem upsert_replace_semantics_amended_witness :
    findSubstr? ((codex.build_block agentClean).drop 0) (codex.end_marker agentClean.id) =
      some (35 - 0) ∧
    codex.upsert_block (codex.build_block agentClean) agentClean =
      (codex.build_block agentClean).take 0 ++ codex.build_block agentClean ++
        (codex.build_block agentClean).drop
          (codex.skipLeadingNl (codex.build_block agentClean)
            (35 + (codex.end_marker agentClean.id).length)) :=
  upsert_replace_semantics_amended (codex.build_block agentClean) agentClean 0 35
    (by decide) (by decide) (by decide)

/-- C6 counterexample: on the haystack `"a\n\n\n"` (already ending with two
blank lines) the append branch adds no separator, so more than one blank line
separates the appended block from the prior content, refuting the claimed net
effect of exactly one blank line. -/
theorem upsert_append_blank_lines_cex :
    findSubstr? H6cex (codex.start_marker agentClean.id) = none ∧
    codex.upsert_block H6cex agentClean = H6cex ++ codex.build_block agentClean ∧
    H6cex ≠ [] ∧
    codex.endsWithSeq H6cex ['\n', '\n', '\n'] = true ∧
    ¬ (codex.endsWithSeq (codex.padBlank H6cex) ['\n', '\n', '\n'] = false) := by
  decide

/-- C6 (amended): when the id's marker pair is not found, the result is the
haystack with a newline appended if non-empty and not newline-terminated, and
one more newline appended if not ending in a blank line, followed by the new
block; zero newlines are added to an empty haystack, the padded haystack ends
with a blank line whenever it is non-empty, and exactly one blank line
separates the block from prior content whenever the haystack did not already
end with two blank lines (three consecutive newlines). -/
theorem upsert_append_semantics_amended (H : List Char) (agent : AgentDefinition)
    (hnf : findSubstr? H (codex.start_marker agent.id) = none ∨
           findSubstr? H (codex.end_marker agent.id) = none) :
    codex.upsert_block H agent = codex.padBlank H ++ codex.build_block agent ∧
    (H = [] → codex.padBlank H = H) ∧
    (∃ p, codex.padBlank H = H ++ p ∧
      (p = [] ∨ p = ['\n'] ∨ p = ['\n', '\n'])) ∧
    (H ≠ [] → codex.endsWithSeq (codex.padBlank H) ['\n', '\n'] = true) ∧
    (H ≠ [] → codex.endsWithSeq H ['\n', '\n', '\n'] = false →
      codex.endsWithSeq (codex.padBlank H) ['\n', '\n', '\n'] = false) := by
  refine ⟨codex.upsert_block_not_found hnf, ?_, ?_, ?_, ?_⟩
  · intro h0
    rcases codex.padBlank_cases H with ⟨-, hp⟩ | ⟨hne, -, -⟩ | ⟨hne, -, -, -⟩ | ⟨hne, -, -⟩
    · rw [hp, h0]
    · exact absurd h0 hne
    · exact absurd h0 hne
    · exact absurd h0 hne
  · rcases codex.padBlank_cases H with ⟨h0, hp⟩ | ⟨-, -, hp⟩ | ⟨-, -, -, hp⟩ | ⟨-, -, hp⟩
    · refine ⟨[], ?_, Or.inl rfl⟩
      rw [hp, h0]
      rfl
    · exact ⟨['\n', '\n'], hp, Or.inr (Or.inr rfl)⟩
    · exact ⟨['\n'], hp, Or.inr (Or.inl rfl)⟩
    · exact ⟨[], by simp [hp], Or.inl rfl⟩
  · intro hne
    rcases codex.padBlank_cases H with ⟨h0, -⟩ | ⟨-, h1, hp⟩ | ⟨-, h1, -, hp⟩ | ⟨-, h2, hp⟩
    · exact absurd h0 hne
    · rw [hp]; exact codex.endsWithSeq_two_append_two H
    · rw [hp]; exact codex.endsWithSeq_append_nl h1
    · rw [hp]; exact h2
  · intro hne h3
    rcases codex.padBlank_cases H with ⟨h0, -⟩ | ⟨-, h1, hp⟩ | ⟨-, -, h2, hp⟩ | ⟨-, -, hp⟩
    · exact absurd h0 hne
    · rw [hp]; exact codex.endsWithSeq_three_append_two_of_ne h1
    · rw [hp]; exact codex.endsWithSeq_three_append_one h2
    · rw [hp]; exact h3

/-- Witness for the amended C6 theorem at a concrete input. -/
theorem upsert_append_semantics_amended_witness :
    codex.upsert_block ['x'] agentClean =
      codex.padBlank ['x'] ++ codex.build_block agentClean :=
  (upsert_append_semantics_amended ['x'] agentClean (Or.inl (by decide))).1

/-- C4 counterexample: `remove_block` is not byte-for-byte frame-preserving
outside the block: with human text `"x\n\n"` before the block, removal also
consumes one of the two newlines, returning `"x\n"` instead of `"x\n\n"`. -/
theorem codec_frame_remove_gap_cex :
    codex.remove_block H4cex agentClean.id = ['x', '\n'] ∧
    H4cex = ['x', '\n', '\n'] ++ codex.build_block agentClean ∧
    codex.remove_block H4cex agentClean.id ≠ ['x', '\n', '\n'] := by
  decide

/-- C4 (amended): both codec operations are splices that keep all text outside
the operated range byte-for-byte, with two documented exceptions: the append
path of `upsert_block` inserts newline padding between the prior text and the
block, and `remove_block` additionally deletes one newline just before the
block when the preceding text ends with a blank line.  Replacement keeps
`H.take sp` and the suffix after the consumed range exactly; removal keeps the
suffix exactly and `H.take sp` exactly whenever the preceding text does not
end with two consecutive newlines; a missing marker pair leaves the haystack
untouched by `remove_block`. -/
theorem codec_frame_amended (H : List Char) (agent : AgentDefinition) :
    (∀ sp ep, findSubstr? H (codex.start_marker agent.id) = some sp →
      findSubstr? H (codex.end_marker agent.id) = some ep →
      codex.upsert_block H agent =
        H.take sp ++ codex.build_block agent ++
          H.drop (codex.skipLeadingNl H (ep + (codex.end_marker agent.id).length))) ∧
    ((findSubstr? H (codex.start_marker agent.id) = none ∨
      findSubstr? H (codex.end_marker agent.id) = none) →
      ∃ p, (∀ c ∈ p, c = '\n') ∧
        codex.upsert_block H agent = (H ++ p) ++ codex.build_block agent) ∧
    (∀ sp ep, findSubstr? H (codex.start_marker agent.id) = some sp →
      findSubstr? H (codex.end_marker agent.id) = some ep →
      codex.remove_block H agent.id =
        H.take (codex.removeAdjStart H sp) ++
          H.drop (codex.skipLeadingNl H (ep + (codex.end_marker agent.id).length)) ∧
      (codex.endsWithSeq (H.take sp) ['\n', '\n'] = false →
        codex.remove_block H agent.id =
          H.take sp ++
            H.drop (codex.skipLeadingNl H (ep + (codex.end_marker agent.id).length)))) ∧
    ((findSubstr? H (codex.start_marker agent.id) = none ∨
      findSubstr? H (codex.end_marker agent.id) = none) →
      codex.remove_block H agent.id = H) := by
  refine ⟨?_, ?_, ?_, ?_⟩
  · intro sp ep hs he
    rw [codex.upsert_block_found hs he, codex.replaceRange]
  · intro hnf
    obtain ⟨p, hp, hpc⟩ := codex.padBlank_exists H
    exact ⟨p, hpc, by rw [codex.upsert_block_not_found hnf, hp]⟩
  · intro sp ep hs he
    refine ⟨codex.remove_block_found hs he, ?_⟩
    intro hguard
    rw [codex.remove_block_found hs he]
    have hadj : codex.removeAdjStart H sp = sp := by
      unfold codex.removeAdjStart
      rw [if_neg (fun hcon => by rw [hguard] at hcon; exact absurd hcon.2 (by decide))]
    rw [hadj]
  · intro hnf
    exact codex.remove_block_not_found hnf

/-- Witness for the amended C4 theorem at a concrete input: a haystack without
the marker pair is left untouched by `remove_block`. -/
theorem codec_frame_amended_witness :
    codex.remove_block ['x'] agentClean.id = ['x'] :=
  (codec_frame_amended ['x'] agentClean).2.2.2 (Or.inl (by decide))

theorem app_to_col_allowed (app : AppType) :
    app_to_col app = "claude_enabled" ∨ app_to_col app = "codex_enabled" ∨
    app_to_col app = "gemini_enabled" ∨ app_to_col app = "opencode_enabled" := by
  cases app
  · exact Or.inl rfl
  · exact Or.inr (Or.inl rfl)
  · exact Or.inr (Or.inr (Or.inl rfl))
  · exact Or.inr (Or.inr (Or.inr rfl))
  · exact Or.inr (Or.inr (Or.inr rfl))

theorem dao_toggle_eq_ok (db : List Prompt) (id : String) (app : AppType)
    (enabled : Bool) :
    Database.toggle_prompt_app db id (app_to_col app) enabled =
      Except.ok (daoApply db id (app_to_col app) enabled) := by
  unfold Database.toggle_prompt_app
  rw [if_pos (app_to_col_allowed app)]

theorem map_eq_self_of {α : Type} {f : α → α} {l : List α}
    (h : ∀ a ∈ l, f a = a) : l.map f = l := by
  rw [List.map_congr_left h, List.map_id']

/-- Full case inversion of `PromptService::toggle_prompt_app` on the success
path: the resulting store is always the DAO result, and the file effect is one
of the five source branches. -/
theorem toggle_prompt_app_inv {st : PromptState} {id : String} {app : AppType}
    {enabled : Bool} {st2 : PromptState}
    (hok : PromptService.toggle_prompt_app st id app enabled = Except.ok st2) :
    st2.prompts = daoApply st.prompts id (app_to_col app) enabled ∧
    ((enabled = true ∧ ∃ p, getPrompt st2.prompts id = some p ∧
        st2.files = sync_app_file st.files app (some p.content)) ∨
     (enabled = true ∧ getPrompt st2.prompts id = none ∧ st2.files = st.files) ∨
     (enabled = false ∧ st2.prompts.any (fun p => app_enabled p.apps app) = true ∧
        st2.files = st.files) ∨
     (enabled = false ∧ st2.prompts.any (fun p => app_enabled p.apps app) = false ∧
        (∃ c, st.files app = some c) ∧ st2.files = writeFS st.files app "") ∨
     (enabled = false ∧ st2.prompts.any (fun p => app_enabled p.apps app) = false ∧
        st.files app = none ∧ st2.files = st.files)) := by
  unfold PromptService.toggle_prompt_app at hok
  split at hok
  next e heq => exact absurd hok (by simp)
  next db2 heq =>
    have hD := dao_toggle_eq_ok st.prompts id app enabled
    rw [heq] at hD
    injection hD with hdb2
    cases enabled with
    | true =>
      rw [if_pos (show true = true from rfl)] at hok
      split at hok
      next p hg =>
        cases hok
        exact ⟨hdb2, Or.inl ⟨rfl, p, hg, rfl⟩⟩
      next hg =>
        cases hok
        exact ⟨hdb2, Or.inr (Or.inl ⟨rfl, hg, rfl⟩)⟩
    | false =>
      rw [if_neg (show ¬ (false = true) by decide)] at hok
      split at hok
      next hany =>
        cases hok
        exact ⟨hdb2, Or.inr (Or.inr (Or.inl ⟨rfl, hany, rfl⟩))⟩
      next hany =>
        have hany2 : db2.any (fun p => app_enabled p.apps app) = false := by
          simpa using hany
        split at hok
        next c hfs =>
          cases hok
          exact ⟨hdb2, Or.inr (Or.inr (Or.inr (Or.inl ⟨rfl, hany2, ⟨c, hfs⟩, rfl⟩)))⟩
        next hfs =>
          cases hok
          exact ⟨hdb2, Or.inr (Or.inr (Or.inr (Or.inr ⟨rfl, hany2, hfs, rfl⟩)))⟩

theorem setCol_id (p : Prompt) (col : String) (b : Bool) :
    (setCol p col b).id = p.id := by
  unfold setCol
  split_ifs <;> rfl

theorem app_enabled_setCol_same (p : Prompt) (t : AppType) (b : Bool) :
    app_enabled (setCol p (app_to_col t) b).apps t = b := by
  cases t <;> rfl

theorem app_enabled_setCol_other (p : Prompt) (t app : AppType) (b : Bool)
    (hne : app_to_col t ≠ app_to_col app) :
    app_enabled (setCol p (app_to_col app) b).apps t = app_enabled p.apps t := by
  cases t <;> cases app <;> first
    | exact absurd rfl hne
    | rfl

theorem countP_congr_mem {α : Type} {f g : α → Bool} {l : List α}
    (h : ∀ a ∈ l, f a = g a) : l.countP f = l.countP g := by
  induction l with
  | nil => rfl
  | cons a t ih =>
    rw [List.countP_cons, List.countP_cons, h a (by simp),
      ih (fun x hx => h x (by simp [hx]))]

theorem countP_map_eq {α β : Type} (f : α → β) (pred : β → Bool) (l : List α) :
    (l.map f).countP pred = l.countP (fun a => pred (f a)) := by
  induction l with
  | nil => rfl
  | cons a t ih => rw [List.map_cons, List.countP_cons, List.countP_cons, ih]

theorem countP_le_one_of_unique {db : List Prompt} {id : String}
    (hnd : (db.map Prompt.id).Nodup) (f : Prompt → Bool)
    (h : ∀ p ∈ db, f p = true → p.id = id) : db.countP f ≤ 1 := by
  induction db with
  | nil => simp
  | cons p t ih =>
    rw [List.map_cons, List.nodup_cons] at hnd
    obtain ⟨hni, hnt⟩ := hnd
    rw [List.countP_cons]
    by_cases hp : f p = true
    · have hz : t.countP f = 0 := by
        rw [List.countP_eq_zero]
        intro q hq hqf
        have hqe : q.id = id := h q (by simp [hq]) hqf
        have hpe : p.id = id := h p (by simp) hp
        exact hni (List.mem_map.mpr ⟨q, hq, by rw [hqe, hpe]⟩)
      simp [hz, hp]
    · have hpb : f p = false := by simpa using hp
      simp only [hpb, if_false]
      exact Nat.le_trans (Nat.le_of_eq (Nat.add_zero _))
        (ih hnt (fun q hq hqf => h q (by simp [hq]) hqf))

theorem daoApply_ids (db : List Prompt) (id : String) (col : String)
    (enabled : Bool) :
    (daoApply db id col enabled).map Prompt.id = db.map Prompt.id := by
  unfold daoApply
  cases enabled with
  | true =>
    rw [if_pos (show (true : Bool) = true from rfl), List.map_map, List.map_map]
    apply List.map_congr_left
    intro q hq
    simp only [Function.comp]
    by_cases hc : (setCol q col false).id = id
    · rw [if_pos hc, setCol_id, setCol_id]
    · rw [if_neg hc, setCol_id]
  | false =>
    rw [if_neg (show ¬ ((false : Bool) = true) by decide), List.map_map]
    apply List.map_congr_left
    intro q hq
    simp only [Function.comp]
    by_cases hc : q.id = id
    · rw [if_pos hc, setCol_id]
    · rw [if_neg hc]

theorem daoApply_enable_flag {db : List Prompt} {id : String} {app t : AppType}
    (hcol : app_to_col t = app_to_col app) :
    ∀ p ∈ daoApply db id (app_to_col app) true,
      (app_enabled p.apps t = true ↔ p.id = id) := by
  intro p hp
  unfold daoApply at hp
  rw [if_pos (show (true : Bool) = true from rfl)] at hp
  obtain ⟨q1, hq1, hq1e⟩ := List.mem_map.mp hp
  by_cases hid : q1.id = id
  · rw [if_pos hid] at hq1e
    subst hq1e
    constructor
    · intro _
      rw [setCol_id]
      exact hid
    · intro _
      rw [← hcol, app_enabled_setCol_same]
  · rw [if_neg hid] at hq1e
    subst hq1e
    obtain ⟨q0, hq0, hq0e⟩ := List.mem_map.mp hq1
    constructor
    · intro hen
      rw [← hq0e, ← hcol, app_enabled_setCol_same] at hen
      cases hen
    · intro hpid
      exact absurd hpid hid

theorem daoApply_countP_other {db : List Prompt} {id : String} {app t : AppType}
    {enabled : Bool} (hcol : app_to_col t ≠ app_to_col app) :
    (daoApply db id (app_to_col app) enabled).countP
        (fun p => app_enabled p.apps t) =
      db.countP (fun p => app_enabled p.apps t) := by
  unfold daoApply
  cases enabled with
  | true =>
    rw [if_pos (show (true : Bool) = true from rfl), countP_map_eq, countP_map_eq]
    apply countP_congr_mem
    intro q hq
    by_cases hc : (setCol q (app_to_col app) false).id = id
    · rw [if_pos hc, app_enabled_setCol_other _ _ _ _ hcol,
        app_enabled_setCol_other _ _ _ _ hcol]
    · rw [if_neg hc, app_enabled_setCol_other _ _ _ _ hcol]
  | false =>
    rw [if_neg (show ¬ ((false : Bool) = true) by decide), countP_map_eq]
    apply countP_congr_mem
    intro q hq
    by_cases hc : q.id = id
    · rw [if_pos hc, app_enabled_setCol_other _ _ _ _ hcol]
    · rw [if_neg hc]

theorem daoApply_countP_disable_le {db : List Prompt} {id : String} {app t : AppType} :
    (daoApply db id (app_to_col app) false).countP
        (fun p => app_enabled p.apps t) ≤
      db.countP (fun p => app_enabled p.apps t) := by
  unfold daoApply
  rw [if_neg (show ¬ ((false : Bool) = true) by decide), countP_map_eq]
  apply List.countP_mono_left
  intro q hq hpred
  simp only [] at hpred
  by_cases hc : q.id = id
  · rw [if_pos hc] at hpred
    by_cases hcol : app_to_col t = app_to_col app
    · rw [← hcol, app_enabled_setCol_same] at hpred
      cases hpred
    · rw [app_enabled_setCol_other _ _ _ _ hcol] at hpred
      exact hpred
  · rw [if_neg hc] at hpred
    exact hpred

/-- C1: per-tool mutual exclusion for prompts.  Enabling a present prompt id
for a tool leaves exactly that id with the tool's flag set (every other prompt
has it cleared), and every toggle — enabling or disabling, any tool — keeps
the invariant that at most one prompt holds a given tool's flag.  The `Nodup`
hypothesis models the store's primary-key uniqueness of `id`. -/
theorem prompt_toggle_mutual_exclusion (st : PromptState) (id : String)
    (app : AppType) (enabled : Bool) (st2 : PromptState)
    (hnd : (st.prompts.map Prompt.id).Nodup)
    (hok : PromptService.toggle_prompt_app st id app enabled = Except.ok st2) :
    (enabled = true → (∃ p ∈ st.prompts, p.id = id) →
      ∀ p ∈ st2.prompts, (app_enabled p.apps app = true ↔ p.id = id)) ∧
    (∀ t, st.prompts.countP (fun p => app_enabled p.apps t) ≤ 1 →
      st2.prompts.countP (fun p => app_enabled p.apps t) ≤ 1) := by
  obtain ⟨hdb, -⟩ := toggle_prompt_app_inv hok
  constructor
  · rintro rfl -
    intro p hp
    rw [hdb] at hp
    exact daoApply_enable_flag rfl p hp
  · intro t hle
    rw [hdb]
    by_cases hcol : app_to_col t = app_to_col app
    · cases enabled with
      | true =>
        have hnd2 : ((daoApply st.prompts id (app_to_col app) true).map
            Prompt.id).Nodup := by
          rw [daoApply_ids]; exact hnd
        exact countP_le_one_of_unique hnd2 _
          (fun p hp hpf => (daoApply_enable_flag hcol p hp).mp hpf)
      | false =>
        exact Nat.le_trans daoApply_countP_disable_le hle
    · rw [daoApply_countP_other hcol]
      exact hle

/-- Witness for C1 at a concrete two-prompt store. -/
theorem prompt_toggle_mutual_exclusion_witness :
    stTwoAfter.prompts.countP
      (fun p => app_enabled p.apps AppType.Claude) ≤ 1 :=
  (prompt_toggle_mutual_exclusion stTwo "p2" AppType.Claude true stTwoAfter
      (by decide) (by rfl)).2 AppType.Claude (by decide)

/-- Forward computation form of `PromptService::toggle_prompt_app`: the column
is always allowed, so the DAO step never fails. -/
theorem toggle_prompt_app_eq (st : PromptState) (id : String) (app : AppType)
    (enabled : Bool) :
    PromptService.toggle_prompt_app st id app enabled =
      (if enabled then
        match getPrompt (daoApply st.prompts id (app_to_col app) enabled) id with
        | some p =>
            Except.ok ⟨daoApply st.prompts id (app_to_col app) enabled,
              sync_app_file st.files app (some p.content)⟩
        | none =>
            Except.ok ⟨daoApply st.prompts id (app_to_col app) enabled, st.files⟩
      else
        if (daoApply st.prompts id (app_to_col app) enabled).any
            (fun p => app_enabled p.apps app) then
          Except.ok ⟨daoApply st.prompts id (app_to_col app) enabled, st.files⟩
        else
          match st.files app with
          | some _ =>
              Except.ok ⟨daoApply st.prompts id (app_to_col app) enabled,
                writeFS st.files app ""⟩
          | none =>
              Except.ok ⟨daoApply st.prompts id (app_to_col app) enabled, st.files⟩) := by
  unfold PromptService.toggle_prompt_app
  rw [dao_toggle_eq_ok]

/-- C2 counterexample: toggling a missing prompt id with `enabled = true` is
not a no-op: it clears the tool's column on every stored prompt. -/
theorem toggle_missing_id_not_noop_cex :
    (∀ p ∈ stTwo.prompts, p.id ≠ "zzz") ∧
    (PromptService.toggle_prompt_app stTwo "zzz" AppType.Claude true).toOption.map
        PromptState.prompts =
      some [{ id := "p1", name := "n1", content := "c1" },
            { id := "p2", name := "n2", content := "c2" }] ∧
    stTwo.prompts ≠ [{ id := "p1", name := "n1", content := "c1" },
            { id := "p2", name := "n2", content := "c2" }] := by
  decide

/-- C2 (amended): toggling a missing id returns success for both kinds.  For
agents it is a full no-op: the store is unchanged and no dispatcher call is
made, so the filesystem is untouched.  For prompts the call still succeeds,
but enabling clears the tool's column on every prompt (files untouched), and
disabling leaves the store unchanged while truncating the tool's file exactly
when it exists and no prompt holds the tool's flag. -/
theorem toggle_missing_id_amended :
    (∀ (db : List AgentDefinition) (fs : AgentFS) (id : List Char) (app : AppType)
        (b : Bool), findAgent db id = none →
      AgentsService.toggle_app db id app b = (db, []) ∧
      applyCalls fs (AgentsService.toggle_app db id app b).2 = fs) ∧
    (∀ (st : PromptState) (id : String) (app : AppType),
      (∀ p ∈ st.prompts, p.id ≠ id) →
      (∃ st2, PromptService.toggle_prompt_app st id app true = Except.ok st2 ∧
        st2.prompts = st.prompts.map (fun p => setCol p (app_to_col app) false) ∧
        st2.files = st.files) ∧
      (∃ st2, PromptService.toggle_prompt_app st id app false = Except.ok st2 ∧
        st2.prompts = st.prompts ∧
        (st.prompts.any (fun p => app_enabled p.apps app) = true →
          st2.files = st.files) ∧
        (st.prompts.any (fun p => app_enabled p.apps app) = false →
          (st.files app = none → st2.files = st.files) ∧
          (∀ c, st.files app = some c → st2.files = writeFS st.files app "")))) := by
  constructor
  · intro db fs id app b hfind
    have h1 : AgentsService.toggle_app db id app b = (db, []) := by
      unfold AgentsService.toggle_app
      rw [hfind]
    refine ⟨h1, ?_⟩
    rw [h1]
    rfl
  · intro st id app hmiss
    constructor
    · have hda : daoApply st.prompts id (app_to_col app) true =
          st.prompts.map (fun p => setCol p (app_to_col app) false) := by
        unfold daoApply
        rw [if_pos (show (true : Bool) = true from rfl)]
        apply map_eq_self_of
        intro a ha
        obtain ⟨q0, hq0, hq0e⟩ := List.mem_map.mp ha
        rw [if_neg (by rw [← hq0e, setCol_id]; exact hmiss q0 hq0)]
      have hnone : getPrompt (daoApply st.prompts id (app_to_col app) true) id =
          none := by
        rw [getPrompt, List.find?_eq_none]
        intro x hx
        have hxid : x.id ∈ (daoApply st.prompts id (app_to_col app) true).map
            Prompt.id := List.mem_map_of_mem _ hx
        rw [daoApply_ids] at hxid
        obtain ⟨q, hq, hqe⟩ := List.mem_map.mp hxid
        have : x.id ≠ id := by rw [← hqe]; exact hmiss q hq
        simpa using this
      refine ⟨⟨daoApply st.prompts id (app_to_col app) true, st.files⟩, ?_, hda, rfl⟩
      rw [toggle_prompt_app_eq, if_pos (show (true : Bool) = true from rfl), hnone]
    · have hda : daoApply st.prompts id (app_to_col app) false = st.prompts := by
        unfold daoApply
        rw [if_neg (show ¬ ((false : Bool) = true) by decide)]
        apply map_eq_self_of
        intro a ha
        rw [if_neg (hmiss a ha)]
      by_cases hany : st.prompts.any (fun p => app_enabled p.apps app) = true
      · refine ⟨⟨st.prompts, st.files⟩, ?_, rfl, fun _ => rfl, fun hf => ?_⟩
        · rw [toggle_prompt_app_eq, if_neg (show ¬ ((false : Bool) = true) by decide),
            hda, if_pos hany]
        · rw [hany] at hf
          cases hf
      · have hany2 : st.prompts.any (fun p => app_enabled p.apps app) = false := by
          simpa using hany
        cases hfs : st.files app with
        | some c =>
          refine ⟨⟨st.prompts, writeFS st.files app ""⟩, ?_, rfl, fun ht => ?_,
            fun _ => ⟨fun hn => ?_, fun c2 hc2 => rfl⟩⟩
          · rw [toggle_prompt_app_eq, if_neg (show ¬ ((false : Bool) = true) by decide),
              hda, if_neg hany, hfs]
          · rw [hany2] at ht
            cases ht
          · exact Option.noConfusion hn
        | none =>
          refine ⟨⟨st.prompts, st.files⟩, ?_, rfl, fun ht => rfl,
            fun _ => ⟨fun _ => rfl, fun c2 hc2 => ?_⟩⟩
          · rw [toggle_prompt_app_eq, if_neg (show ¬ ((false : Bool) = true) by decide),
              hda, if_neg hany, hfs]
          · exact Option.noConfusion hc2

/-- Witness for the amended C2 theorem: toggling a missing agent id is a
no-op. -/
theorem toggle_missing_id_amended_witness :
    AgentsService.toggle_app [] ['z'] AppType.Claude true = ([], []) :=
  (toggle_missing_id_amended.1 [] fs0 ['z'] AppType.Claude true rfl).1

/-- C8 counterexample: disabling the sole enabled prompt does not write an
empty file when the tool's prompt file is absent: the filesystem still has no
file for the tool afterwards. -/
theorem disable_absent_file_cex :
    (∀ q ∈ stC8.prompts, app_enabled q.apps AppType.Claude = true → q.id = "p") ∧
    (PromptService.toggle_prompt_app stC8 "p" AppType.Claude false).toOption.map
        (fun s => s.files AppType.Claude) = some none ∧
    some (none : Option String) ≠ some (some "") := by
  decide

/-- C8 (amended): disabling a prompt that is the only one enabled for a tool
clears every prompt's flag for that tool and, provided the tool's prompt file
exists, truncates it to the empty string. -/
theorem disable_clears_file_amended (st : PromptState) (P : Prompt) (app : AppType)
    (c : String) (_hmem : P ∈ st.prompts)
    (hsole : ∀ q ∈ st.prompts, app_enabled q.apps app = true → q.id = P.id)
    (hfile : st.files app = some c) :
    ∃ st2, PromptService.toggle_prompt_app st P.id app false = Except.ok st2 ∧
      st2.files app = some "" ∧
      ∀ q ∈ st2.prompts, app_enabled q.apps app = false := by
  have hall : ∀ q ∈ daoApply st.prompts P.id (app_to_col app) false,
      app_enabled q.apps app = false := by
    intro q hq
    unfold daoApply at hq
    rw [if_neg (show ¬ ((false : Bool) = true) by decide)] at hq
    obtain ⟨q0, hq0, hq0e⟩ := List.mem_map.mp hq
    by_cases hid : q0.id = P.id
    · rw [if_pos hid] at hq0e
      rw [← hq0e, app_enabled_setCol_same]
    · rw [if_neg hid] at hq0e
      rw [← hq0e]
      cases hb : app_enabled q0.apps app
      · rfl
      · exact absurd (hsole q0 hq0 hb) hid
  have hany : (daoApply st.prompts P.id (app_to_col app) false).any
      (fun p => app_enabled p.apps app) = false := by
    rw [List.any_eq_false]
    intro x hx hc
    rw [hall x hx] at hc
    cases hc
  refine ⟨⟨daoApply st.prompts P.id (app_to_col app) false, writeFS st.files app ""⟩,
    ?_, ?_, hall⟩
  · rw [toggle_prompt_app_eq, if_neg (show ¬ ((false : Bool) = true) by decide),
      if_neg (by rw [hany]; exact (by decide : ¬ (false = true))), hfile]
  · show (if app = app then (some "" : Option String) else st.files app) = some ""
    have happ : app = app := rfl
    rw [if_pos happ]

/-- Witness for the amended C8 theorem at the concrete store `stC8f`. -/
theorem disable_clears_file_amended_witness :
    ∃ st2, PromptService.toggle_prompt_app stC8f "p" AppType.Claude false =
        Except.ok st2 ∧
      st2.files AppType.Claude = some "" ∧
      ∀ q ∈ st2.prompts, app_enabled q.apps AppType.Claude = false :=
  disable_clears_file_amended stC8f promptP AppType.Claude "x"
    (by decide) (by decide) (by rfl)

/-- C10: OpenClaw is an alias of OpenCode for prompts (same database column,
same enabled-flag reading, same DAO update, and service toggles touch the
same prompt rows), while for agent file sync and removal OpenClaw is a
filesystem no-op. -/
theorem openclaw_aliases_opencode :
    app_to_col AppType.OpenClaw = app_to_col AppType.OpenCode ∧
    (∀ apps : PromptApps,
      app_enabled apps AppType.OpenClaw = app_enabled apps AppType.OpenCode) ∧
    (∀ (db : List Prompt) (id : String) (enabled : Bool),
      Database.toggle_prompt_app db id (app_to_col AppType.OpenClaw) enabled =
        Database.toggle_prompt_app db id (app_to_col AppType.OpenCode) enabled) ∧
    (∀ (st : PromptState) (id : String) (enabled : Bool) (st2 st3 : PromptState),
      PromptService.toggle_prompt_app st id AppType.OpenClaw enabled =
        Except.ok st2 →
      PromptService.toggle_prompt_app st id AppType.OpenCode enabled =
        Except.ok st3 →
      st2.prompts = st3.prompts) ∧
    (∀ (agent : AgentDefinition) (fs : AgentFS),
      sync_agent_to_app agent AppType.OpenClaw fs = fs) ∧
    (∀ (id : List Char) (fs : AgentFS),
      remove_agent_from_app id AppType.OpenClaw fs = fs) := by
  refine ⟨rfl, fun apps => rfl, fun db id enabled => rfl, ?_, fun agent fs => rfl,
    fun id fs => rfl⟩
  intro st id enabled st2 st3 h2 h3
  obtain ⟨e2, -⟩ := toggle_prompt_app_inv h2
  obtain ⟨e3, -⟩ := toggle_prompt_app_inv h3
  rw [e2, e3]
  rfl

/-- Witness for C10: disabling the OpenCode-enabled prompt via OpenClaw and
via OpenCode produces the same prompt rows on a concrete store. -/
theorem openclaw_aliases_opencode_witness :
    stOcClaw.prompts = stOcCode.prompts :=
  openclaw_aliases_opencode.2.2.2.1 stOc "p" false stOcClaw stOcCode
    (by rfl) (by rfl)

/-- Membership in a conditional singleton list forces both the condition and
the equality. -/
theorem mem_ite_singleton {c x : DispatchCall} {P : Prop} [Decidable P]
    (h : c ∈ (if P then [x] else [])) : c = x ∧ P := by
  by_cases hp : P
  · rw [if_pos hp] at h
    exact ⟨List.mem_singleton.mp h, hp⟩
  · rw [if_neg hp] at h
    cases h

/-- `enabled_apps` lists exactly the tools whose MCP flag is set. -/
theorem mem_enabled_apps (m : McpApps) (t : AppType) :
    t ∈ enabled_apps m ↔ mcpFlag m t = true := by
  cases t <;> simp [enabled_apps, mcpFlag]

/-- C7: upserting an agent saves it to the store, then issues a batch of
dispatcher calls: first removals of the agent's file precisely for the tools
that were enabled before and are disabled now, then syncs precisely for the
tools enabled in the new definition. -/
theorem agents_upsert_disable_then_resync (db : List AgentDefinition)
    (agent : AgentDefinition) :
    (AgentsService.upsert db agent).1 = saveAgent db agent ∧
    ∃ rs ss, (AgentsService.upsert db agent).2 = rs ++ ss ∧
      (∀ c ∈ rs, ∃ t, c = DispatchCall.remove agent.id t) ∧
      (∀ c ∈ ss, ∃ t, c = DispatchCall.sync agent t) ∧
      (∀ t, DispatchCall.remove agent.id t ∈ rs ↔
        (mcpFlag (prevApps db agent.id) t = true ∧
          mcpFlag agent.apps t = false)) ∧
      (∀ t, DispatchCall.sync agent t ∈ ss ↔ mcpFlag agent.apps t = true) := by
  refine ⟨rfl, AgentsService.upsertRemoves db agent,
    (enabled_apps agent.apps).map (fun t => DispatchCall.sync agent t),
    rfl, ?_, ?_, ?_, ?_⟩
  · intro c hc
    unfold AgentsService.upsertRemoves at hc
    rcases List.mem_append.mp hc with h1 | h4
    · rcases List.mem_append.mp h1 with h2 | h3
      · rcases List.mem_append.mp h2 with h5 | h6
        · exact ⟨AppType.Claude, (mem_ite_singleton h5).1⟩
        · exact ⟨AppType.Codex, (mem_ite_singleton h6).1⟩
      · exact ⟨AppType.Gemini, (mem_ite_singleton h3).1⟩
    · exact ⟨AppType.OpenCode, (mem_ite_singleton h4).1⟩
  · intro c hc
    obtain ⟨t, ht, hte⟩ := List.mem_map.mp hc
    exact ⟨t, hte.symm⟩
  · intro t
    unfold AgentsService.upsertRemoves
    constructor
    · intro hmem2
      rcases List.mem_append.mp hmem2 with h1 | h4
      · rcases List.mem_append.mp h1 with h2 | h3
        · rcases List.mem_append.mp h2 with h5 | h6
          · obtain ⟨he, hp⟩ := mem_ite_singleton h5
            injection he with hi hT
            subst hT
            refine ⟨hp.1, ?_⟩
            simp only [mcpFlag]
            simpa using hp.2
          · obtain ⟨he, hp⟩ := mem_ite_singleton h6
            injection he with hi hT
            subst hT
            refine ⟨hp.1, ?_⟩
            simp only [mcpFlag]
            simpa using hp.2
        · obtain ⟨he, hp⟩ := mem_ite_singleton h3
          injection he with hi hT
          subst hT
          refine ⟨hp.1, ?_⟩
          simp only [mcpFlag]
          simpa using hp.2
      · obtain ⟨he, hp⟩ := mem_ite_singleton h4
        injection he with hi hT
        subst hT
        refine ⟨hp.1, ?_⟩
        simp only [mcpFlag]
        simpa using hp.2
    · intro hpn
      obtain ⟨hprev, hnew⟩ := hpn
      cases t with
      | Claude =>
        simp only [mcpFlag] at hprev hnew
        apply List.mem_append.mpr
        left
        apply List.mem_append.mpr
        left
        apply List.mem_append.mpr
        left
        rw [if_pos (show (prevApps db agent.id).claude ∧ ¬ agent.apps.claude from
          ⟨hprev, by simp [hnew]⟩)]
        exact List.mem_singleton.mpr rfl
      | Codex =>
        simp only [mcpFlag] at hprev hnew
        apply List.mem_append.mpr
        left
        apply List.mem_append.mpr
        left
        apply List.mem_append.mpr
        right
        rw [if_pos (show (prevApps db agent.id).codex ∧ ¬ agent.apps.codex from
          ⟨hprev, by simp [hnew]⟩)]
        exact List.mem_singleton.mpr rfl
      | Gemini =>
        simp only [mcpFlag] at hprev hnew
        apply List.mem_append.mpr
        left
        apply List.mem_append.mpr
        right
        rw [if_pos (show (prevApps db agent.id).gemini ∧ ¬ agent.apps.gemini from
          ⟨hprev, by simp [hnew]⟩)]
        exact List.mem_singleton.mpr rfl
      | OpenCode =>
        simp only [mcpFlag] at hprev hnew
        apply List.mem_append.mpr
        right
        rw [if_pos (show (prevApps db agent.id).opencode ∧ ¬ agent.apps.opencode from
          ⟨hprev, by simp [hnew]⟩)]
        exact List.mem_singleton.mpr rfl
      | OpenClaw =>
        simp only [mcpFlag] at hprev
        exact absurd hprev (by decide)
  · intro t
    simp only [List.mem_map]
    constructor
    · rintro ⟨a, ha, hae⟩
      injection hae with h1 h2
      subst h2
      exact (mem_enabled_apps _ _).mp ha
    · intro hf
      exact ⟨t, (mem_enabled_apps _ _).mpr hf, rfl⟩

/-- Witness for C7 at a concrete store and agent. -/
theorem agents_upsert_disable_then_resync_witness :
    (AgentsService.upsert [] agentClean).1 = saveAgent [] agentClean :=
  (agents_upsert_disable_then_resync [] agentClean).1
